import Mathlib

/-!
Verification development for the S3 storage driver
(`registry/storage/driver/s3/s3.go`).

The driver is shallowly embedded: Go byte slices become `List Nat`,
the S3 bucket becomes an explicit value threaded through each operation,
and the remote S3 calls (InitMulti, PutPart, PutPartCopy, Complete,
Abort, Head, ranged GET, List, DelMulti) become a `Backend` record of
pure outcomes.  The driver instance is modelled with
`RootDirectory = ""` (the default configuration), so `s3Path` is just
`strings.TrimLeft(path, "/")`.

Concurrency note: `WriteStream` uploads each filled buffer on a
background goroutine synchronised through a single unbuffered channel
(`putErrChan`); at most one upload is outstanding, and its result is
observed either at the start of the next `fromReader` call or in the
deferred cleanup.  We model this with an explicit `pending` slot in the
writer state whose effects (the backend `PutPart` call, the append to
`parts`, the increment of `partNumber`) are applied at exactly those
synchronisation points.
-/

namespace S3Driver

/-- A byte of object content. -/
abbrev Byte := Nat

/-- Write `src` into `buf` starting at position `pos`
(the Go pattern `copy(buf[pos:], src)` / reads into `buf[pos:]`). -/
def writeAt (buf : List Byte) (pos : Nat) (src : List Byte) : List Byte :=
  buf.take pos ++ src ++ buf.drop (pos + src.length)

/-- The byte source handed to `WriteStream` (the `io.Reader`): it yields
`bytes` and then, once exhausted, either reports `io.EOF`
(`errAtEnd = false`) or a read error (`errAtEnd = true`). -/
structure Source where
  bytes : List Byte
  errAtEnd : Bool
  deriving Repr, DecidableEq

/-- Error kinds surfaced by the modelled driver calls. -/
inductive WErr
  | srcErr      -- a non-EOF error from the byte source
  | putPartErr  -- a failed `multi.PutPart`
  | copyErr     -- a failed `multi.PutPartCopy`
  | notFound    -- `PathNotFoundError` (S3 `NoSuchKey` after `parseError`)
  | initErr     -- a failed `InitMulti`
  deriving Repr, DecidableEq

/-- Outcomes of the S3 calls issued by `WriteStream`.  `putPartOk` is
indexed by the part number being uploaded. -/
structure Backend where
  initOk : Bool
  copyOk : Bool
  putPartOk : Nat → Bool
  completeOk : Bool

/-- A backend on which every call succeeds. -/
def Backend.allOk : Backend :=
  { initOk := true, copyOk := true, putPartOk := fun _ => true, completeOk := true }

/-- A backend on which every `PutPart` fails (all other calls succeed). -/
def Backend.failPut : Backend :=
  { Backend.allOk with putPartOk := fun _ => false }

/-- A backend on which only `PutPartCopy` fails. -/
def Backend.failCopy : Backend :=
  { Backend.allOk with copyOk := false }

/-- The mutable state of one `WriteStream` call: the unread remainder of
the source, the `totalRead` counter, the next part number, the parts
uploaded so far (in ascending part-number order, identified by their
byte content), the current chunk buffer, and the at-most-one outstanding
background upload `(bytesRead, from, buf)`. -/
structure WSt where
  src : List Byte
  totalRead : Nat
  partNumber : Nat
  parts : List (List Byte)
  buf : List Byte
  pending : Option (Nat × Nat × List Byte)
  deriving Repr

/-- Observe the outstanding background upload, if any: the Go receive
from `putErrChan`.  If the recorded read count is positive the goroutine
performed `multi.PutPart(partNumber, buf[0:bytesRead+from])`, appended
the resulting part and incremented `partNumber`; on a failed `PutPart`
it still appends the (zero-valued) part and reports the error. -/
def resolvePending (be : Backend) (st : WSt) : WSt × Option WErr :=
  match st.pending with
  | none => (st, none)
  | some (br, fr, b) =>
    if 0 < br then
      if be.putPartOk st.partNumber then
        ({ st with pending := none, parts := st.parts ++ [b.take (fr + br)],
                   partNumber := st.partNumber + 1 }, none)
      else
        ({ st with pending := none, parts := st.parts ++ [[]],
                   partNumber := st.partNumber + 1 }, some .putPartErr)
    else
      ({ st with pending := none }, none)

/-- `fromReader`: fill `buf[fr:]` from the source until the buffer holds
`chunkSize` bytes or the source is exhausted, counting every byte read
into `totalRead`; then observe the previous background upload and, if it
succeeded, hand the filled buffer to a new background upload and grab a
fresh (zeroed) buffer from the pool.  Returns the per-call `bytesRead`
alongside the state.  A non-EOF source error returns before the channel
exchange, leaving the outstanding upload for the deferred cleanup. -/
def fromReader (be : Backend) (eEnd : Bool) (n : Nat) (fr : Nat) (st : WSt) :
    WSt × Nat × Option WErr :=
  let want := n - fr
  let got := st.src.take want
  let st1 : WSt :=
    { st with src := st.src.drop want, totalRead := st.totalRead + got.length,
              buf := writeAt st.buf fr got }
  if got.length < want ∧ eEnd then
    (st1, got.length, some .srcErr)
  else
    match resolvePending be st1 with
    | (st2, some e) => (st2, got.length, some e)
    | (st2, none) =>
      ({ st2 with pending := some (got.length, fr, st2.buf),
                  buf := List.replicate n 0 },
       got.length, none)

/-- `fromSmallCurrent`: read the existing object's bytes `[0, total)`
into the front of the buffer via `ReadStream(path, 0)`.  On a missing
object the ranged GET fails with `NoSuchKey`, which `ReadStream` turns
into `PathNotFoundError`. -/
def fromSmallCurrent (bucket : Option (List Byte)) (total : Nat) (st : WSt) :
    WSt × Option WErr :=
  match bucket with
  | none => (st, some .notFound)
  | some cur => ({ st with buf := writeAt st.buf 0 (cur.take total) }, none)

/-- `fromZeroFillSmall`: fill `buf[fr:to)` with zero bytes (reads from the
shared `d.zeros` buffer never fail). -/
def fromZeroFillSmall (fr hi : Nat) (st : WSt) : WSt :=
  { st with buf := writeAt st.buf fr (List.replicate (hi - fr) 0) }

/-- The loop inside `fromZeroFillLarge`: upload `k` whole chunk-sized
all-zero parts directly (not via the background goroutine). -/
def zeroFillLoop (be : Backend) (n : Nat) (st : WSt) : Nat → WSt × Option WErr
  | 0 => (st, none)
  | k + 1 =>
    if be.putPartOk st.partNumber then
      zeroFillLoop be n
        { st with parts := st.parts ++ [List.replicate n 0],
                  partNumber := st.partNumber + 1 } k
    else (st, some .putPartErr)

/-- `fromZeroFillLarge`: upload whole zero chunks while at least one
chunk fits in `[fr, to)`, then zero-fill the first `(to - fr) % n` bytes
of the buffer. -/
def fromZeroFillLarge (be : Backend) (n fr hi : Nat) (st : WSt) : WSt × Option WErr :=
  match zeroFillLoop be n st ((hi - fr) / n) with
  | (st1, some e) => (st1, some e)
  | (st1, none) => (fromZeroFillSmall 0 ((hi - fr) % n) st1, none)

/-- The trailing `for` loop of `WriteStream`: `fromReader(0)` until a
short read or an error.  `fuel` is an upper bound on the number of
iterations; every caller passes `src.length + 1`, which (for `0 < n`) is
never exhausted because each continued iteration consumes `n` source
bytes. -/
def mainLoop (be : Backend) (eEnd : Bool) (n : Nat) : Nat → WSt → WSt × Option WErr
  | 0, st => (st, none)
  | f + 1, st =>
    match fromReader be eEnd n 0 st with
    | (st1, _, some e) => (st1, some e)
    | (st1, br, none) => if br < n then (st1, none) else mainLoop be eEnd n f st1

/-- Run the trailing loop and return `(state, totalRead, err)` the way the
surrounding `return totalRead, err` statements do. -/
def runMain (be : Backend) (eEnd : Bool) (n : Nat) (st : WSt) : WSt × Nat × Option WErr :=
  match mainLoop be eEnd n (st.src.length + 1) st with
  | (st1, e) => (st1, st1.totalRead, e)

/-- The pattern each offset case ends with: one `fromReader(fr)` call,
then `return totalRead, nil` if the first buffer did not fill
(`totalRead + fr < chunkSize`), otherwise fall through to the trailing
streaming loop. -/
def streamTail (be : Backend) (eEnd : Bool) (n fr : Nat) (st : WSt) :
    WSt × Nat × Option WErr :=
  match fromReader be eEnd n fr st with
  | (st1, _, some e) => (st1, st1.totalRead, some e)
  | (st1, _, none) =>
    if st1.totalRead + fr < n then (st1, st1.totalRead, none)
    else runMain be eEnd n st1

/-- The body of `WriteStream` between the `defer` and the final return:
the five-way case split on `(currentLength, offset, chunkSize)` followed
by the streaming loop.  Returns the state handed to the deferred
cleanup, the value of the `totalRead` named return, and the error. -/
def wsBody (be : Backend) (n : Nat) (bucket : Option (List Byte)) (offset : Nat)
    (src : Source) : WSt × Nat × Option WErr :=
  let st0 : WSt :=
    { src := src.bytes, totalRead := 0, partNumber := 1, parts := [],
      buf := List.replicate n 0, pending := none }
  if 0 < offset then
    -- Head probe; a `NoSuchKey` failure is tolerated and leaves currentLength = 0
    let curLen : Nat := match bucket with | none => 0 | some c => c.length
    if offset ≤ curLen then
      if offset < n then
        -- chunkSize > currentLength >= offset
        match fromSmallCurrent bucket offset st0 with
        | (st1, some e) => (st1, st1.totalRead, some e)
        | (st1, none) => streamTail be src.errAtEnd n offset st1
      else
        -- currentLength >= offset >= chunkSize: server-side copy of [0, offset)
        if be.copyOk then
          runMain be src.errAtEnd n
            { st0 with parts := st0.parts ++ [(bucket.getD []).take offset],
                       partNumber := st0.partNumber + 1 }
        else (st0, 0, some .copyErr)
    else
      -- currentLength < offset
      if curLen < n then
        if offset < n then
          -- chunkSize > offset > currentLength
          match fromSmallCurrent bucket curLen st0 with
          | (st1, some e) => (st1, st1.totalRead, some e)
          | (st1, none) =>
            streamTail be src.errAtEnd n offset (fromZeroFillSmall curLen offset st1)
        else
          -- offset >= chunkSize > currentLength
          match fromSmallCurrent bucket curLen st0 with
          | (st1, some e) => (st1, st1.totalRead, some e)
          | (st1, none) =>
            let st2 := fromZeroFillSmall curLen n st1
            if be.putPartOk st2.partNumber then
              let st3 : WSt :=
                { st2 with parts := st2.parts ++ [st2.buf],
                           partNumber := st2.partNumber + 1 }
              match fromZeroFillLarge be n n offset st3 with
              | (st4, some e) => (st4, st4.totalRead, some e)
              | (st4, none) => streamTail be src.errAtEnd n (offset % n) st4
            else (st2, st2.totalRead, some .putPartErr)
      else
        -- offset > currentLength >= chunkSize: copy the whole object
        if be.copyOk then
          let st1 : WSt :=
            { st0 with parts := st0.parts ++ [bucket.getD []],
                       partNumber := st0.partNumber + 1 }
          match fromZeroFillLarge be n curLen offset st1 with
          | (st2, some e) => (st2, st2.totalRead, some e)
          | (st2, none) => streamTail be src.errAtEnd n ((offset - curLen) % n) st2
        else (st0, 0, some .copyErr)
  else
    runMain be src.errAtEnd n st0

/-- The fate of the multipart session when `WriteStream` returns. -/
inductive MultiState
  | noSession       -- InitMulti failed; no session exists
  | pendingSession  -- a session was initiated but neither completed nor aborted
  | completed       -- `multi.Complete(parts)` succeeded
  | aborted         -- `Complete` failed and `multi.Abort()` was issued
  deriving Repr, DecidableEq

/-- Everything observable about one `WriteStream` call: the returned
`(totalRead, err)` pair, the object stored at the path afterwards, the
fate of the multipart session, and the unread remainder of the source. -/
structure WSResult where
  consumed : Nat
  err : Option WErr
  bucketAfter : Option (List Byte)
  multi : MultiState
  srcLeft : List Byte
  deriving Repr

/-- `WriteStream(path, offset, reader)` against a bucket holding
`bucket` at the path (`none` = no object).  Runs the body and then the
deferred cleanup: drain `putErrChan` (a pending upload's error overrides
`err`), and, only if at least one part was uploaded, complete the
multipart upload — falling back to `Abort` if `Complete` fails, in which
case the pre-existing object is untouched. -/
def WriteStream (be : Backend) (n : Nat) (bucket : Option (List Byte)) (offset : Nat)
    (src : Source) : WSResult :=
  if be.initOk then
    match wsBody be n bucket offset src with
    | (st, consumed, e) =>
      match resolvePending be st with
      | (st1, e2) =>
        let err := match e2 with | some pe => some pe | none => e
        if st1.parts = [] then
          { consumed := consumed, err := err, bucketAfter := bucket,
            multi := .pendingSession, srcLeft := st1.src }
        else if be.completeOk then
          { consumed := consumed, err := err, bucketAfter := some st1.parts.flatten,
            multi := .completed, srcLeft := st1.src }
        else
          { consumed := consumed, err := err, bucketAfter := bucket,
            multi := .aborted, srcLeft := st1.src }
  else
    { consumed := 0, err := some .initErr, bucketAfter := bucket,
      multi := .noSession, srcLeft := src.bytes }

/-- `ReadStream(path, offset)`: a ranged GET `bytes=offset-`.  A missing
object yields `NoSuchKey`, normalised to `PathNotFoundError`; an
`InvalidRange` response (offset at or past the end) yields an empty,
immediately-exhausted stream instead of an error. -/
def ReadStream (bucket : Option (List Byte)) (offset : Nat) :
    Except WErr (List Byte) :=
  match bucket with
  | none => .error .notFound
  | some c => if c.length ≤ offset then .ok [] else .ok (c.drop offset)



/-! ### Chunking of the streamed source (used to describe the parts) -/

/-- Split a byte list into maximal `n`-sized chunks, the last possibly
short; this is how the trailing loop slices the source into parts. -/
def chunksOf : Nat → List Byte → List (List Byte)
  | _, [] => []
  | 0, _ :: _ => []
  | n + 1, a :: as => (a :: as).take (n + 1) :: chunksOf (n + 1) (as.drop n)
termination_by _ l => l.length
decreasing_by simp only [List.length_drop, List.length_cons]; omega

/-- The part the outstanding background upload will contribute once it
is observed (empty when no upload is outstanding or it read nothing). -/
def pendContent : Option (Nat × Nat × List Byte) → List (List Byte)
  | none => []
  | some (br, fr, b) => if 0 < br then [b.take (fr + br)] else []

/-- The parts list after the deferred drain of `putErrChan` on a backend
whose part uploads succeed. -/
def flushParts (st : WSt) : List (List Byte) := st.parts ++ pendContent st.pending

/-! ### Keys, paths, Delete, Stat and List

Keys and paths are byte strings (`List Nat`); `sep` is the byte `'/'`.
The driver instance is modelled with `RootDirectory = ""`, so `s3Path`
is `strings.TrimLeft(path, "/")` and the `strings.Replace(key,
d.s3Path(""), prefix, 1)` in `List` prepends `"/"` (Go's `Replace` with
an empty `old` inserts `new` at the start). -/

abbrev Str := List Nat

/-- The path/key delimiter byte `'/'`. -/
def sep : Nat := 47

/-- `listMax`: the largest number of objects S3 returns from one list call. -/
def listMax : Nat := 1000

/-- `s3Path` for `RootDirectory = ""`:
`strings.TrimLeft(strings.TrimRight("", "/")+path, "/")`. -/
def s3Path (path : Str) : Str := path.dropWhile (fun a => a = sep)

/-- Result of `Delete`. -/
inductive DeleteOutcome
  | ok
  | notFound
  deriving Repr, DecidableEq

/-- One page of a plain (no delimiter) list call: the first `listMax`
bucket keys carrying the prefix. -/
def matchingPage (keys : List Str) (pre : Str) : List Str :=
  (keys.filter fun k => pre.isPrefixOf k).take listMax

/-- The page-at-a-time loop of `Delete`: bulk-delete the listed page and
relist until no keys match.  A failed `DelMulti` takes the code's
`return nil` branch: the loop stops, reports success, and the keys are
untouched.  `fuel` bounds the iterations; callers pass `keys.length + 1`
which is never exhausted since every successful round removes at least
one key. -/
def deleteLoop (delMultiOk : Bool) (pre : Str) : Nat → List Str → List Str × DeleteOutcome
  | 0, keys => (keys, .ok)
  | f + 1, keys =>
    let page := matchingPage keys pre
    if page.isEmpty then (keys, .ok)
    else if delMultiOk then
      deleteLoop delMultiOk pre f (keys.filter fun k => ¬ page.contains k)
    else (keys, .ok)

/-- `Delete(path)`: list with prefix `s3Path(path)`; no matches is
`PathNotFoundError`; otherwise delete page by page. -/
def DeleteModel (delMultiOk : Bool) (keys : List Str) (path : Str) :
    List Str × DeleteOutcome :=
  let pre := s3Path path
  if (matchingPage keys pre).isEmpty then (keys, .notFound)
  else deleteLoop delMultiOk pre (keys.length + 1) keys

/-- An object as seen by a list call: key, size and last-modified time
(the RFC3339 timestamp is modelled as already parsed). -/
structure SObj where
  key : Str
  size : Nat
  modTime : Nat
  deriving Repr, DecidableEq

/-- `storagedriver.FileInfoFields`. -/
structure FileInfoFields where
  path : Str
  size : Nat
  modTime : Nat
  isDir : Bool
  deriving Repr, DecidableEq

/-- `Stat(path)`: a list call with limit 1 at the exact key.  With an
empty delimiter S3 returns no common prefixes, so that branch of the
disambiguation never fires. -/
def Stat (bucket : List SObj) (path : Str) : Option FileInfoFields :=
  let pre := s3Path path
  let contents := (bucket.filter fun o => pre.isPrefixOf o.key).take 1
  let cps : List Str := []
  match contents with
  | [o] =>
    if o.key ≠ pre then some { path := path, size := 0, modTime := 0, isDir := true }
    else some { path := path, size := o.size, modTime := o.modTime, isDir := false }
  | _ =>
    if cps.length = 1 then some { path := path, size := 0, modTime := 0, isDir := true }
    else none

/-! ### The delimiter list used by `List` -/

/-- Boolean lexicographic strict order on byte strings (S3 lists keys in
this order). -/
def lexLt : Str → Str → Bool
  | [], [] => false
  | [], _ :: _ => true
  | _ :: _, [] => false
  | a :: as, b :: bs => if a < b then true else if b < a then false else lexLt as bs

/-- Everything up to and including the first `sep` (used to form a
common prefix from the part of a key after the request prefix). -/
def cutAtSep : Str → Str
  | [] => []
  | a :: as => if a = sep then [a] else a :: cutAtSep as

/-- One entry of a delimiter list: an object key, or a common prefix
standing for all keys sharing it. -/
inductive Entry
  | content (key : Str)
  | commonPre (cp : Str)
  deriving Repr, DecidableEq

/-- How S3 classifies one key under `(prefix, delimiter = "/")`. -/
def entryOf (pre k : Str) : Entry :=
  let rest := k.drop pre.length
  if sep ∈ rest then .commonPre (pre ++ cutAtSep rest) else .content k

/-- The position of an entry in the listing order. -/
def entryKey : Entry → Str
  | .content k => k
  | .commonPre c => c

/-- Collapse equal adjacent entries: keys sharing a common prefix are
contiguous in sorted order and roll up into a single entry. -/
def dedupAdj : List Entry → List Entry
  | [] => []
  | [e] => [e]
  | e1 :: e2 :: es => if e1 = e2 then dedupAdj (e2 :: es) else e1 :: dedupAdj (e2 :: es)

/-- The full entry sequence of a delimiter list over the bucket. -/
def entriesOf (keys : List Str) (pre : Str) : List Entry :=
  dedupAdj ((keys.filter fun k => pre.isPrefixOf k).map (entryOf pre))

/-- One page of a delimiter list call. -/
structure ListResp where
  contents : List Str
  cps : List Str
  isTrunc : Bool
  nextMarker : Str
  deriving Repr, DecidableEq

/-- `Bucket.List(prefix, "/", marker, maxKeys)`: the entries after
`marker`, capped at `maxKeys`; when truncated, `NextMarker` is the
position of the last entry returned. -/
def s3List (keys : List Str) (pre marker : Str) (maxKeys : Nat) : ListResp :=
  let es := (entriesOf keys pre).filter fun e => lexLt marker (entryKey e)
  let page := es.take maxKeys
  { contents := page.filterMap fun e => match e with | .content k => some k | _ => none,
    cps := page.filterMap fun e => match e with | .commonPre c => some c | _ => none,
    isTrunc := maxKeys < es.length,
    nextMarker := ((page.getLast?).map entryKey).getD [] }

/-- The accumulation loop of `List`: collect keys (with the leading `"/"`
restored) and common prefixes (trailing delimiter stripped, leading
`"/"` restored), relisting from `NextMarker` while truncated.  `fuel`
bounds the iterations; callers pass `keys.length + 1`, never exhausted
since a truncated page holds `listMax` entries. -/
def listLoop (keys : List Str) (pre : Str) :
    Nat → ListResp → List Str × List Str → List Str × List Str
  | 0, _, acc => acc
  | f + 1, resp, (fs, ds) =>
    let fs := fs ++ resp.contents.map fun k => sep :: k
    let ds := ds ++ resp.cps.map fun c => sep :: c.dropLast
    if resp.isTrunc then
      listLoop keys pre f (s3List keys pre resp.nextMarker listMax) (fs, ds)
    else (fs, ds)

/-- `List` appends `"/"` unless the path is `"/"` or already ends in it. -/
def normDirPath (path : Str) : Str :=
  if path ≠ [sep] ∧ path.getLast? ≠ some sep then path ++ [sep] else path

/-- `List(path)`: the paginated delimiter list, files then directories. -/
def ListModel (keys : List Str) (path : Str) : List Str :=
  let pre := s3Path (normDirPath path)
  match listLoop keys pre (keys.length + 1) (s3List keys pre [] listMax) ([], []) with
  | (fs, ds) => fs ++ ds

/-- Specification-side: `k` is an immediate child file of the directory
whose key (with trailing delimiter) is `pre`. -/
def isChildFileKey (pre k : Str) : Bool :=
  pre.isPrefixOf k && !((k.drop pre.length).contains sep)

/-- Specification-side: the driver path of the child directory of `pre`
that the key `k` witnesses (the segment of `k` after `pre` up to the
first delimiter, as a `"/"`-rooted path). -/
def childDirNameOf (pre k : Str) : Str :=
  sep :: (pre ++ (k.drop pre.length).takeWhile (fun a => ¬ a = sep))


/-! ### Basic lemmas: buffers, chunking, pending uploads -/

theorem writeAt_length {buf s : List Byte} {pos : Nat}
    (h : pos + s.length ≤ buf.length) : (writeAt buf pos s).length = buf.length := by
  simp only [writeAt, List.length_append, List.length_take, List.length_drop]
  omega

theorem writeAt_take {buf s : List Byte} {pos : Nat} (h : pos ≤ buf.length) :
    (writeAt buf pos s).take (pos + s.length) = buf.take pos ++ s := by
  have h1 : (buf.take pos).length = pos := by simp [Nat.min_eq_left h]
  calc (writeAt buf pos s).take (pos + s.length)
      = (buf.take pos ++ (s ++ buf.drop (pos + s.length))).take
          ((buf.take pos).length + s.length) := by simp [writeAt, h1]
    _ = buf.take pos ++ (s ++ buf.drop (pos + s.length)).take s.length := by
          rw [List.take_append]
    _ = buf.take pos ++ s := by rw [List.take_left]

theorem writeAt_zero_replicate {s : List Byte} {n : Nat} :
    writeAt (List.replicate n 0) 0 s = s ++ List.replicate (n - s.length) 0 := by
  simp [writeAt, List.drop_replicate]

theorem allOk_putPartOk (k : Nat) : Backend.allOk.putPartOk k = true := rfl

theorem allOk_copyOk : Backend.allOk.copyOk = true := rfl

theorem failPut_putPartOk (k : Nat) : Backend.failPut.putPartOk k = false := rfl

theorem writeAt_zeros_into_zeros (x : List Byte) {j m : Nat} (h : j ≤ m) :
    writeAt (x ++ List.replicate m (0 : Byte)) x.length (List.replicate j 0) =
      x ++ List.replicate m 0 := by
  have h1 : (x ++ List.replicate m (0 : Byte)).take x.length = x := List.take_left x _
  have h2 : (x ++ List.replicate m (0 : Byte)).drop (x.length + j) =
      List.replicate (m - j) 0 := by
    rw [List.drop_append_eq_append_drop]
    simp [List.drop_replicate, Nat.sub_add_eq]
  simp only [writeAt, List.length_replicate, h1, h2]
  rw [List.append_assoc, ← List.replicate_add]
  congr 2
  omega

theorem take_flushed {buf s : List Byte} {pos : Nat} (h : pos ≤ buf.length) :
    (writeAt buf pos s).take (pos + s.length) = buf.take pos ++ s :=
  writeAt_take h

theorem chunksOf_nil (n : Nat) : chunksOf n [] = [] := by
  cases n <;> simp [chunksOf]

theorem chunksOf_short {n : Nat} {l : List Byte} (hne : l ≠ []) (hlt : l.length < n) :
    chunksOf n l = [l] := by
  match n, l with
  | 0, _ => omega
  | n + 1, [] => exact absurd rfl hne
  | n + 1, a :: as =>
    have hlen : (a :: as).length ≤ n + 1 := Nat.le_of_lt hlt
    have hdrop : as.drop n = [] := by
      apply List.drop_eq_nil_of_le
      simp at hlen ⊢
      omega
    rw [chunksOf, hdrop, chunksOf_nil, List.take_of_length_le hlen]

theorem chunksOf_cons (n : Nat) (a : Byte) (as : List Byte) :
    chunksOf (n + 1) (a :: as) =
      (a :: as).take (n + 1) :: chunksOf (n + 1) (as.drop n) := by
  rw [chunksOf]

theorem chunksOf_step {n : Nat} {l : List Byte} (hn : 0 < n) (hle : n ≤ l.length) :
    chunksOf n l = l.take n :: chunksOf n (l.drop n) := by
  match n, l with
  | n + 1, [] => simp at hle
  | n + 1, a :: as => rw [chunksOf_cons]; rfl

theorem flatten_chunksOf {n : Nat} (hn : 0 < n) (l : List Byte) :
    (chunksOf n l).flatten = l := by
  by_cases hnil : l = []
  · subst hnil; rw [chunksOf_nil]; rfl
  by_cases hlt : l.length < n
  · rw [chunksOf_short hnil hlt]; simp
  · rw [chunksOf_step hn (Nat.le_of_not_lt hlt)]
    have ih : (chunksOf n (l.drop n)).flatten = l.drop n :=
      flatten_chunksOf hn (l.drop n)
    simp [ih]
termination_by l.length
decreasing_by simp only [List.length_drop]; omega

theorem chunksOf_ne_nil {n : Nat} {l : List Byte} (hn : 0 < n) (hne : l ≠ []) :
    chunksOf n l ≠ [] := by
  by_cases hlt : l.length < n
  · rw [chunksOf_short hne hlt]; simp
  · rw [chunksOf_step hn (Nat.le_of_not_lt hlt)]; simp

theorem flatten_replicate_zeros (k n : Nat) :
    (List.replicate k (List.replicate n (0 : Byte))).flatten =
      List.replicate (k * n) 0 := by
  induction k with
  | zero => simp
  | succ k ih =>
    rw [List.replicate_succ, List.flatten_cons, ih, ← List.replicate_add]
    congr 1
    ring

theorem resolvePending_allOk (st : WSt) :
    resolvePending .allOk st =
      ({ st with parts := flushParts st, pending := none,
                 partNumber := st.partNumber + (pendContent st.pending).length }, none) := by
  rcases st with ⟨src, tr, pn, parts, buf, pending⟩
  match pending with
  | none => simp [resolvePending, flushParts, pendContent]
  | some (br, fr, b) =>
    by_cases hbr : 0 < br
    · simp [resolvePending, flushParts, pendContent, hbr, Backend.allOk]
    · simp [resolvePending, flushParts, pendContent, hbr, Backend.allOk]

theorem zeroFillLoop_allOk (n : Nat) :
    ∀ (k : Nat) (st : WSt),
      zeroFillLoop .allOk n st k =
        ({ st with parts := st.parts ++ List.replicate k (List.replicate n 0),
                   partNumber := st.partNumber + k }, none) := by
  intro k
  induction k with
  | zero => intro st; simp [zeroFillLoop]
  | succ k ih =>
    intro st
    rw [zeroFillLoop]
    simp only [allOk_putPartOk, if_true]
    rw [ih]
    simp only [Prod.mk.injEq, WSt.mk.injEq, List.replicate_succ, List.append_assoc,
      List.singleton_append, true_and, and_true]
    omega

theorem fromZeroFillLarge_allOk (n fr hi : Nat) (st : WSt) :
    fromZeroFillLarge .allOk n fr hi st =
      ({ st with parts := st.parts ++
                   List.replicate ((hi - fr) / n) (List.replicate n 0),
                 partNumber := st.partNumber + (hi - fr) / n,
                 buf := writeAt st.buf 0 (List.replicate ((hi - fr) % n) 0) }, none) := by
  rw [fromZeroFillLarge, zeroFillLoop_allOk]
  simp [fromZeroFillSmall]



/-! ### One step of the reader, and the trailing loop -/

theorem fromReader_srcErr {st : WSt} {n fr : Nat}
    (be : Backend)
    (hshort : (st.src.take (n - fr)).length < n - fr) :
    fromReader be true n fr st =
      ({ st with src := st.src.drop (n - fr),
                 totalRead := st.totalRead + (st.src.take (n - fr)).length,
                 buf := writeAt st.buf fr (st.src.take (n - fr)) },
       (st.src.take (n - fr)).length, some .srcErr) := by
  simp only [fromReader]
  rw [if_pos (show (st.src.take (n - fr)).length < n - fr ∧ True
    from ⟨hshort, trivial⟩)]

theorem fromReader_allOk {st : WSt} {eEnd : Bool} {n fr : Nat}
    (hok : ¬((st.src.take (n - fr)).length < n - fr ∧ eEnd = true)) :
    fromReader .allOk eEnd n fr st =
      (⟨st.src.drop (n - fr), st.totalRead + (st.src.take (n - fr)).length,
        st.partNumber + (pendContent st.pending).length,
        st.parts ++ pendContent st.pending,
        List.replicate n 0,
        some ((st.src.take (n - fr)).length, fr, writeAt st.buf fr (st.src.take (n - fr)))⟩,
       (st.src.take (n - fr)).length, none) := by
  rw [fromReader]
  simp only [if_neg hok, resolvePending_allOk]
  simp [flushParts]

theorem fromReader_failPut_live {st : WSt} {eEnd : Bool} {n fr br fr0 : Nat}
    {b : List Byte}
    (hok : ¬((st.src.take (n - fr)).length < n - fr ∧ eEnd = true))
    (hp : st.pending = some (br, fr0, b)) (hbr : 0 < br) :
    fromReader .failPut eEnd n fr st =
      ({ st with src := st.src.drop (n - fr),
                 totalRead := st.totalRead + (st.src.take (n - fr)).length,
                 buf := writeAt st.buf fr (st.src.take (n - fr)),
                 parts := st.parts ++ [[]], partNumber := st.partNumber + 1,
                 pending := none },
       (st.src.take (n - fr)).length, some .putPartErr) := by
  rw [fromReader]
  simp only [if_neg hok, resolvePending, hp, if_pos hbr, failPut_putPartOk]
  rfl

theorem fromReader_failPut_none {st : WSt} {eEnd : Bool} {n fr : Nat}
    (hok : ¬((st.src.take (n - fr)).length < n - fr ∧ eEnd = true))
    (hp : st.pending = none) :
    fromReader .failPut eEnd n fr st =
      ({ st with src := st.src.drop (n - fr),
                 totalRead := st.totalRead + (st.src.take (n - fr)).length,
                 pending := some ((st.src.take (n - fr)).length, fr,
                   writeAt st.buf fr (st.src.take (n - fr))),
                 buf := List.replicate n 0 },
       (st.src.take (n - fr)).length, none) := by
  rw [fromReader]
  simp only [if_neg hok, resolvePending, hp]

theorem mainLoop_allOk_ok {n : Nat} (hn : 0 < n) :
    ∀ (f : Nat) (st : WSt), st.src.length < f →
      ∃ st', mainLoop .allOk false n f st = (st', none) ∧
        st'.src = [] ∧
        st'.totalRead = st.totalRead + st.src.length ∧
        flushParts st' = flushParts st ++ chunksOf n st.src := by
  intro f
  induction f with
  | zero => intro st h; omega
  | succ f ih =>
    intro st h
    have hok : ¬((st.src.take (n - 0)).length < n - 0 ∧ (false : Bool) = true) := by
      simp
    rw [mainLoop, fromReader_allOk hok]
    simp only [Nat.sub_zero]
    have hglen : (st.src.take n).length = min n st.src.length := List.length_take n st.src
    by_cases hbr : (st.src.take n).length < n
    · -- the source is exhausted: the loop exits after this iteration
      have hsl : st.src.length < n := by omega
      rw [if_pos hbr]
      refine ⟨_, rfl, ?_, ?_, ?_⟩
      · exact List.drop_eq_nil_of_le (Nat.le_of_lt hsl)
      · simp; omega
      · have htake : st.src.take n = st.src := List.take_of_length_le (Nat.le_of_lt hsl)
        by_cases hnil : st.src = []
        · simp [flushParts, pendContent, hnil, chunksOf_nil]
        · have hlen0 : 0 < (st.src.take n).length := by
            rw [htake]
            exact List.length_pos.mpr hnil
          simp only [flushParts, pendContent, if_pos hlen0, chunksOf_short hnil hsl]
          simp only [Nat.zero_add, htake]
          rw [writeAt, List.take_zero, List.nil_append, List.take_left, List.append_assoc]
    · -- a full chunk was read: the loop continues
      have hfull : (st.src.take n).length = n := by omega
      have hle : n ≤ st.src.length := by omega
      rw [if_neg (by omega : ¬(st.src.take n).length < n)]
      obtain ⟨st', hml, hsrc, htr, hfl⟩ := ih
        ⟨st.src.drop n, st.totalRead + (st.src.take n).length,
         st.partNumber + (pendContent st.pending).length,
         st.parts ++ pendContent st.pending, List.replicate n 0,
         some ((st.src.take n).length, 0, writeAt st.buf 0 (st.src.take n))⟩
        (by simp only [List.length_drop]; omega)
      refine ⟨st', hml, hsrc, ?_, ?_⟩
      · simp only at htr
        rw [htr]
        simp only [List.length_drop]
        omega
      · rw [hfl]
        simp only [flushParts, pendContent]
        rw [if_pos (by omega : 0 < (st.src.take n).length)]
        simp only [Nat.zero_add]
        have hpart : (writeAt st.buf 0 (st.src.take n)).take (st.src.take n).length =
            st.src.take n := by
          rw [writeAt, List.take_zero, List.nil_append, List.take_left]
        rw [hpart, chunksOf_step hn hle]
        simp [List.append_assoc]

theorem mainLoop_allOk_err {n : Nat} (hn : 0 < n) :
    ∀ (f : Nat) (st : WSt), st.src.length < f →
      ∃ st', mainLoop .allOk true n f st = (st', some .srcErr) ∧
        st'.src = [] ∧
        st'.totalRead = st.totalRead + st.src.length := by
  intro f
  induction f with
  | zero => intro st h; omega
  | succ f ih =>
    intro st h
    by_cases hshort : (st.src.take (n - 0)).length < n - 0
    · rw [mainLoop, fromReader_srcErr _ hshort]
      have hglen : (st.src.take (n - 0)).length = min (n - 0) st.src.length :=
        List.length_take _ st.src
      have hsl : st.src.length < n := by omega
      refine ⟨_, rfl, ?_, ?_⟩
      · exact List.drop_eq_nil_of_le (by omega)
      · simp; omega
    · have hok : ¬((st.src.take (n - 0)).length < n - 0 ∧ (true : Bool) = true) := by
        intro hc
        exact hshort hc.1
      rw [mainLoop, fromReader_allOk hok]
      simp only [Nat.sub_zero] at hshort ⊢
      have hglen : (st.src.take n).length = min n st.src.length := List.length_take n st.src
      have hle : n ≤ st.src.length := by omega
      rw [if_neg (by omega : ¬(st.src.take n).length < n)]
      obtain ⟨st', hml, hsrc, htr⟩ := ih
        ⟨st.src.drop n, st.totalRead + (st.src.take n).length,
         st.partNumber + (pendContent st.pending).length,
         st.parts ++ pendContent st.pending, List.replicate n 0,
         some ((st.src.take n).length, 0, writeAt st.buf 0 (st.src.take n))⟩
        (by simp only [List.length_drop]; omega)
      refine ⟨st', hml, hsrc, ?_⟩
      simp only at htr
      rw [htr]
      simp only [List.length_drop]
      omega

theorem runMain_allOk {n : Nat} (hn : 0 < n) (eEnd : Bool) (st : WSt) :
    ∃ st', runMain .allOk eEnd n st = (st', st'.totalRead,
        if eEnd then some .srcErr else none) ∧
      st'.src = [] ∧ st'.totalRead = st.totalRead + st.src.length ∧
      (eEnd = false → flushParts st' = flushParts st ++ chunksOf n st.src) := by
  cases eEnd with
  | false =>
    obtain ⟨st', hml, h1, h2, h3⟩ :=
      mainLoop_allOk_ok hn (st.src.length + 1) st (Nat.lt_succ_self _)
    exact ⟨st', by simp [runMain, hml], h1, h2, fun _ => h3⟩
  | true =>
    obtain ⟨st', hml, h1, h2⟩ :=
      mainLoop_allOk_err hn (st.src.length + 1) st (Nat.lt_succ_self _)
    exact ⟨st', by simp [runMain, hml], h1, h2, fun hc => by cases hc⟩



theorem streamTail_err {be : Backend} {eEnd : Bool} {n fr len : Nat} {st st1 : WSt}
    {e : WErr} (h : fromReader be eEnd n fr st = (st1, len, some e)) :
    streamTail be eEnd n fr st = (st1, st1.totalRead, some e) := by
  rw [streamTail, h]

theorem streamTail_early {be : Backend} {eEnd : Bool} {n fr len : Nat} {st st1 : WSt}
    (h : fromReader be eEnd n fr st = (st1, len, none))
    (hc : st1.totalRead + fr < n) :
    streamTail be eEnd n fr st = (st1, st1.totalRead, none) := by
  rw [streamTail, h]
  exact if_pos hc

theorem streamTail_loop {be : Backend} {eEnd : Bool} {n fr len : Nat} {st st1 : WSt}
    (h : fromReader be eEnd n fr st = (st1, len, none))
    (hc : ¬ st1.totalRead + fr < n) :
    streamTail be eEnd n fr st = runMain be eEnd n st1 := by
  rw [streamTail, h]
  exact if_neg hc

theorem streamTail_allOk {n fr : Nat} (hn : 0 < n) (hfr : fr < n) (eEnd : Bool)
    (st : WSt) (hbuf : st.buf.length = n) (hpend : st.pending = none)
    (htr : st.totalRead = 0) :
    ∃ st', streamTail .allOk eEnd n fr st =
        (st', st'.totalRead, if eEnd then some .srcErr else none) ∧
      st'.src = [] ∧ st'.totalRead = st.src.length ∧
      (eEnd = false →
        flushParts st' = st.parts ++
          (if st.src = [] then []
           else (st.buf.take fr ++ st.src.take (n - fr)) ::
             chunksOf n (st.src.drop (n - fr)))) := by
  have hglen : (st.src.take (n - fr)).length = min (n - fr) st.src.length :=
    List.length_take _ _
  by_cases hshort : (st.src.take (n - fr)).length < n - fr
  · -- the source is exhausted inside the first buffer
    have hsl : st.src.length < n - fr := by omega
    have hdrop : st.src.drop (n - fr) = [] := List.drop_eq_nil_of_le (by omega)
    have htake : st.src.take (n - fr) = st.src := List.take_of_length_le (by omega)
    cases eEnd with
    | true =>
      rw [streamTail_err (fromReader_srcErr _ hshort)]
      refine ⟨_, rfl, hdrop, ?_, ?_⟩
      · simp only [htr, htake, Nat.zero_add]
      · intro hc; cases hc
    | false =>
      have hok : ¬((st.src.take (n - fr)).length < n - fr ∧ (false : Bool) = true) := by
        simp
      rw [streamTail_early (fromReader_allOk hok)
        (show (st.totalRead + (st.src.take (n - fr)).length) + fr < n by omega)]
      refine ⟨_, rfl, hdrop, ?_, ?_⟩
      · simp only [htr, htake, Nat.zero_add]
      · intro _
        simp only [flushParts, hpend, pendContent, List.append_nil]
        by_cases hnil : st.src = []
        · simp [hnil]
        · have hlen0 : 0 < (st.src.take (n - fr)).length := by
            rw [htake]; exact List.length_pos.mpr hnil
          rw [if_pos hlen0, if_neg hnil, hdrop, chunksOf_nil]
          have : (writeAt st.buf fr (st.src.take (n - fr))).take
              (fr + (st.src.take (n - fr)).length) =
              st.buf.take fr ++ st.src.take (n - fr) :=
            writeAt_take (by omega)
          rw [this]
  · -- the first buffer fills; fall through to the trailing loop
    have hfull : (st.src.take (n - fr)).length = n - fr := by omega
    have hsle : n - fr ≤ st.src.length := by omega
    have hok : ¬((st.src.take (n - fr)).length < n - fr ∧ eEnd = true) :=
      fun hc => hshort hc.1
    rw [streamTail_loop (fromReader_allOk hok)
      (show ¬((st.totalRead + (st.src.take (n - fr)).length) + fr < n) by omega)]
    obtain ⟨st', hrm, h1, h2, h3⟩ := runMain_allOk hn eEnd
      ⟨st.src.drop (n - fr), st.totalRead + (st.src.take (n - fr)).length,
       st.partNumber + (pendContent st.pending).length,
       st.parts ++ pendContent st.pending, List.replicate n 0,
       some ((st.src.take (n - fr)).length, fr,
         writeAt st.buf fr (st.src.take (n - fr)))⟩
    rw [hrm]
    refine ⟨st', rfl, h1, ?_, ?_⟩
    · simp only at h2
      rw [h2]
      simp only [List.length_drop]
      omega
    · intro hE
      rw [h3 hE]
      simp only [flushParts, hpend, pendContent, List.append_nil]
      rw [if_pos (show 0 < (st.src.take (n - fr)).length by omega)]
      have hne : st.src ≠ [] := by
        intro hc
        rw [hc] at hsle
        simp at hsle
        omega
      rw [if_neg hne]
      have : (writeAt st.buf fr (st.src.take (n - fr))).take
          (fr + (st.src.take (n - fr)).length) =
          st.buf.take fr ++ st.src.take (n - fr) :=
        writeAt_take (by omega)
      rw [this]
      simp [List.append_assoc]



/-! ### Reducing `wsBody` in each of the five algorithm cases -/

theorem wsBody_offset0 (be : Backend) (n : Nat) (bucket : Option (List Byte))
    (src : Source) :
    wsBody be n bucket 0 src =
      runMain be src.errAtEnd n
        ⟨src.bytes, 0, 1, [], List.replicate n 0, none⟩ := by
  simp [wsBody]

theorem wsBody_case2 {be : Backend} {n offset : Nat} {ex : List Byte} {src : Source}
    (h0 : 0 < offset) (hle : offset ≤ ex.length) (hlt : offset < n) :
    wsBody be n (some ex) offset src =
      streamTail be src.errAtEnd n offset
        ⟨src.bytes, 0, 1, [], writeAt (List.replicate n 0) 0 (ex.take offset), none⟩ := by
  simp [wsBody, fromSmallCurrent, h0, hle, hlt]

theorem wsBody_case3 {be : Backend} {n offset : Nat} {ex : List Byte} {src : Source}
    (hcopy : be.copyOk = true) (h0 : 0 < offset) (hle : offset ≤ ex.length)
    (hnlt : ¬ offset < n) :
    wsBody be n (some ex) offset src =
      runMain be src.errAtEnd n
        ⟨src.bytes, 0, 2, [ex.take offset], List.replicate n 0, none⟩ := by
  simp [wsBody, h0, hle, hnlt, hcopy]

theorem wsBody_case4a {be : Backend} {n offset : Nat} {ex : List Byte} {src : Source}
    (h0 : 0 < offset) (hgt : ¬ offset ≤ ex.length) (hclt : ex.length < n)
    (holt : offset < n) :
    wsBody be n (some ex) offset src =
      streamTail be src.errAtEnd n offset
        ⟨src.bytes, 0, 1, [],
         writeAt (writeAt (List.replicate n 0) 0 (ex.take ex.length)) ex.length
           (List.replicate (offset - ex.length) 0), none⟩ := by
  simp [wsBody, fromSmallCurrent, fromZeroFillSmall, h0, hgt, hclt, holt]

theorem wsBody_case4b {be : Backend} {n offset : Nat} {ex : List Byte} {src : Source}
    (hput : be.putPartOk 1 = true) (h0 : 0 < offset) (hgt : ¬ offset ≤ ex.length)
    (hclt : ex.length < n) (hnlt : ¬ offset < n) :
    wsBody be n (some ex) offset src =
      match fromZeroFillLarge be n n offset
          ⟨src.bytes, 0, 2,
           [writeAt (writeAt (List.replicate n 0) 0 (ex.take ex.length)) ex.length
              (List.replicate (n - ex.length) 0)],
           writeAt (writeAt (List.replicate n 0) 0 (ex.take ex.length)) ex.length
             (List.replicate (n - ex.length) 0), none⟩ with
      | (st4, some e) => (st4, st4.totalRead, some e)
      | (st4, none) => streamTail be src.errAtEnd n (offset % n) st4 := by
  simp [wsBody, fromSmallCurrent, fromZeroFillSmall, h0, hgt, hclt, hnlt, hput]

theorem wsBody_case5 {be : Backend} {n offset : Nat} {ex : List Byte} {src : Source}
    (hcopy : be.copyOk = true) (h0 : 0 < offset) (hgt : ¬ offset ≤ ex.length)
    (hnclt : ¬ ex.length < n) :
    wsBody be n (some ex) offset src =
      match fromZeroFillLarge be n ex.length offset
          ⟨src.bytes, 0, 2, [ex], List.replicate n 0, none⟩ with
      | (st2, some e) => (st2, st2.totalRead, some e)
      | (st2, none) => streamTail be src.errAtEnd n ((offset - ex.length) % n) st2 := by
  simp [wsBody, h0, hgt, hnclt, hcopy]

theorem match_zfl_none {be : Backend} {eEnd : Bool} {n fr : Nat} {st4 : WSt} :
    (match ((st4 : WSt), (none : Option WErr)) with
     | (st4', some e) => (st4', st4'.totalRead, some e)
     | (st4', none) => streamTail be eEnd n fr st4') =
      streamTail be eEnd n fr st4 := rfl



theorem allOk_initOk : Backend.allOk.initOk = true := rfl

theorem allOk_completeOk : Backend.allOk.completeOk = true := rfl

theorem take_append_of_length {x y : List Byte} {q : Nat} (h : x.length = q) :
    (x ++ y).take q = x := by
  subst h
  exact List.take_left x y

theorem take_append_replicate {x : List Byte} {m q : Nat}
    (h1 : x.length ≤ q) (h2 : q ≤ x.length + m) :
    (x ++ List.replicate m (0 : Byte)).take q = x ++ List.replicate (q - x.length) 0 := by
  have hq : q = x.length + (q - x.length) := by omega
  rw [hq, List.take_append, List.take_replicate, Nat.min_eq_left (by omega),
    Nat.add_sub_cancel_left]

theorem WriteStream_allOk_eq {n : Nat} {bucket : Option (List Byte)} {offset : Nat}
    {src : Source} {st : WSt} {c : Nat} {e : Option WErr}
    (hbody : wsBody .allOk n bucket offset src = (st, c, e)) :
    WriteStream .allOk n bucket offset src =
      { consumed := c, err := e,
        bucketAfter := if flushParts st = [] then bucket
          else some (flushParts st).flatten,
        multi := if flushParts st = [] then .pendingSession else .completed,
        srcLeft := st.src } := by
  rw [WriteStream]
  simp only [allOk_initOk, if_true, hbody, resolvePending_allOk, allOk_completeOk]
  by_cases hfp : flushParts st = [] <;> simp [hfp]

/-! ### Simple claim theorems: ReadStream and concrete WriteStream runs -/

/-- C9: for an existing object, `ReadStream(path, offset)` with `offset`
at or beyond the current size returns an empty, immediately-exhausted
stream (no error), and with `offset` within the current size returns the
byte stream starting at `offset`. -/
theorem C9_readStream_offset
    (c : List Byte) (offset : Nat) :
    (c.length ≤ offset → ReadStream (some c) offset = .ok []) ∧
    (offset < c.length → ReadStream (some c) offset = .ok (c.drop offset)) := by
  constructor
  · intro h
    simp [ReadStream, h]
  · intro h
    simp [ReadStream, Nat.not_le.mpr h]

/-- Witness for C9 at the concrete object `[3, 4, 5]`: offset `7` is past
the end and yields the empty stream; offset `1` yields `[4, 5]`. -/
theorem C9_readStream_offset_witness :
    ReadStream (some [3, 4, 5]) 7 = .ok [] ∧
    ReadStream (some [3, 4, 5]) 1 = .ok [4, 5] :=
  ⟨(C9_readStream_offset [3, 4, 5] 7).1 (by decide),
   (C9_readStream_offset [3, 4, 5] 1).2 (by decide)⟩

/-- C2 (failing-input evaluation): when the source yields zero bytes, a
`WriteStream` call that successfully initiated a multipart session
returns success with the session still pending — neither completed nor
aborted — because the deferred cleanup is guarded by `len(parts) > 0`
and no part was ever uploaded.  This contradicts the claimed
"resolved exactly once on every exit path". -/
theorem C2_zero_byte_source_leaves_session_pending :
    (WriteStream .allOk 2 (some [9]) 0 ⟨[], false⟩).err = none ∧
    (WriteStream .allOk 2 (some [9]) 0 ⟨[], false⟩).multi = .pendingSession := by
  constructor <;> rfl

/-- C10 (failing-input evaluation): for a path with no object and
`offset = 2 > 0` (chunk size 4, so `fromSmallCurrent` runs), the write
does NOT treat the missing object as length 0 and zero-fill: the
`ReadStream(path, 0)` call inside `fromSmallCurrent` hits `NoSuchKey`
and `WriteStream` returns `PathNotFoundError`, consuming nothing. -/
theorem C10_missing_object_positive_offset_returns_notFound :
    (WriteStream .allOk 4 none 2 ⟨[7], false⟩).err = some .notFound ∧
    (WriteStream .allOk 4 none 2 ⟨[7], false⟩).consumed = 0 ∧
    (WriteStream .allOk 4 none 2 ⟨[7], false⟩).bucketAfter = none := by
  refine ⟨?_, ?_, ?_⟩ <;> rfl

/-- C1 counterexample: with an existing object `[9]`, offset `0` and a
source that yields zero bytes, `WriteStream` returns success but the
final object is the untouched `[9]`, not the empty byte string the
claim requires (`existing[0:0) ++ source = []`). -/
theorem C1_empty_source_counterexample :
    (WriteStream .allOk 2 (some [9]) 0 ⟨[], false⟩).err = none ∧
    (WriteStream .allOk 2 (some [9]) 0 ⟨[], false⟩).bucketAfter = some [9] ∧
    some [9] ≠ some ((([9] : List Byte).take 0 ++
      List.replicate (0 - ([9] : List Byte).length) 0) ++ ([] : List Byte)) := by
  refine ⟨rfl, rfl, by decide⟩

/-- C3 counterexample: when the final completion call fails (all other
backend calls succeed; chunk 2, no existing object, offset 0, source
`[5]`), `WriteStream` aborts the session but returns `err = none`: the
completion failure is silently discarded instead of being surfaced, so
the claim "the first failure from ... the final completion call is
surfaced to the caller" is false. -/
theorem C3_complete_failure_swallowed_counterexample :
    (WriteStream { Backend.allOk with completeOk := false } 2 none 0
        ⟨[5], false⟩).err = none ∧
    (WriteStream { Backend.allOk with completeOk := false } 2 none 0
        ⟨[5], false⟩).multi = .aborted := by
  constructor <;> rfl

theorem zeros_chain2 {a b : Nat} (X : List Byte) :
    List.replicate a (0 : Byte) ++ (List.replicate b 0 ++ X) =
      List.replicate (a + b) 0 ++ X := by
  rw [List.replicate_add, List.append_assoc]

set_option maxHeartbeats 1000000 in
theorem wsBody_allOk_master {n : Nat} (hn : 0 < n) (bucket : Option (List Byte))
    (offset : Nat) (B : List Byte) (eEnd : Bool) (hb : bucket = none → offset = 0) :
    ∃ st, wsBody .allOk n bucket offset ⟨B, eEnd⟩ =
        (st, st.totalRead, if eEnd then some WErr.srcErr else none) ∧
      st.src = [] ∧ st.totalRead = B.length ∧
      (eEnd = false → B ≠ [] →
        flushParts st ≠ [] ∧
        (flushParts st).flatten =
          (bucket.getD []).take offset ++
            List.replicate (offset - (bucket.getD []).length) 0 ++ B) := by
  rcases Nat.eq_zero_or_pos offset with h0 | h0
  · subst h0
    rw [wsBody_offset0]
    obtain ⟨st', hrm, h1, h2, h3⟩ := runMain_allOk hn eEnd
      ⟨B, 0, 1, [], List.replicate n 0, none⟩
    rw [hrm]
    refine ⟨st', rfl, h1, by simpa using h2, ?_⟩
    intro hE hB
    have hfl : flushParts st' = chunksOf n B := by
      rw [h3 hE]
      simp [flushParts, pendContent]
    refine ⟨?_, ?_⟩
    · rw [hfl]; exact chunksOf_ne_nil hn hB
    · rw [hfl, flatten_chunksOf hn]
      simp
  · cases bucket with
    | none =>
      have := hb rfl
      omega
    | some ex =>
      simp only [Option.getD_some]
      by_cases hle : offset ≤ ex.length
      · by_cases hlt : offset < n
        · -- case 2
          rw [wsBody_case2 h0 hle hlt]
          have hlen : (ex.take offset).length = offset := by
            rw [List.length_take]; omega
          have hb1 : writeAt (List.replicate n 0) 0 (ex.take offset) =
              ex.take offset ++ List.replicate (n - offset) 0 := by
            rw [writeAt_zero_replicate, hlen]
          rw [hb1]
          obtain ⟨st', hstt, h1, h2, h3⟩ := streamTail_allOk hn hlt eEnd
            ⟨B, 0, 1, [], ex.take offset ++ List.replicate (n - offset) 0, none⟩
            (by simp [hlen]; omega) rfl rfl
          rw [hstt]
          refine ⟨st', rfl, h1, by simpa using h2, ?_⟩
          intro hE hB
          have hfl : flushParts st' =
              (ex.take offset ++ B.take (n - offset)) :: chunksOf n (B.drop (n - offset)) := by
            rw [h3 hE]
            simp [hB, take_append_of_length hlen]
          constructor
          · rw [hfl]; simp
          · rw [hfl]
            simp [flatten_chunksOf hn, List.append_assoc, List.take_append_drop,
              Nat.sub_eq_zero_of_le hle]
        · -- case 3
          rw [wsBody_case3 rfl h0 hle hlt]
          obtain ⟨st', hrm, h1, h2, h3⟩ := runMain_allOk hn eEnd
            ⟨B, 0, 2, [ex.take offset], List.replicate n 0, none⟩
          rw [hrm]
          refine ⟨st', rfl, h1, by simpa using h2, ?_⟩
          intro hE hB
          have hfl : flushParts st' = (ex.take offset) :: chunksOf n B := by
            rw [h3 hE]
            simp [flushParts, pendContent]
          constructor
          · rw [hfl]; simp
          · rw [hfl]
            simp [flatten_chunksOf hn, Nat.sub_eq_zero_of_le hle]
      · by_cases hclt : ex.length < n
        · by_cases holt : offset < n
          · -- case 4a
            rw [wsBody_case4a h0 hle hclt holt]
            have hb1 : writeAt (writeAt (List.replicate n 0) 0 (ex.take ex.length))
                ex.length (List.replicate (offset - ex.length) 0) =
                ex ++ List.replicate (n - ex.length) 0 := by
              rw [List.take_length, writeAt_zero_replicate]
              exact writeAt_zeros_into_zeros ex (by omega)
            rw [hb1]
            obtain ⟨st', hstt, h1, h2, h3⟩ := streamTail_allOk hn holt eEnd
              ⟨B, 0, 1, [], ex ++ List.replicate (n - ex.length) 0, none⟩
              (by simp; omega) rfl rfl
            rw [hstt]
            refine ⟨st', rfl, h1, by simpa using h2, ?_⟩
            intro hE hB
            have hfl : flushParts st' =
                ((ex ++ List.replicate (offset - ex.length) 0) ++ B.take (n - offset)) ::
                  chunksOf n (B.drop (n - offset)) := by
              rw [h3 hE]
              simp [hB, take_append_replicate (show ex.length ≤ offset by omega)
                (show offset ≤ ex.length + (n - ex.length) by omega)]
            constructor
            · rw [hfl]; simp
            · rw [hfl]
              simp [flatten_chunksOf hn, List.append_assoc, List.take_append_drop,
                List.take_of_length_le (show ex.length ≤ offset by omega)]
          · -- case 4b
            rw [wsBody_case4b rfl h0 hle hclt holt]
            have hb2 : writeAt (writeAt (List.replicate n 0) 0 (ex.take ex.length))
                ex.length (List.replicate (n - ex.length) 0) =
                ex ++ List.replicate (n - ex.length) 0 := by
              rw [List.take_length, writeAt_zero_replicate]
              exact writeAt_zeros_into_zeros ex (by omega)
            rw [hb2, fromZeroFillLarge_allOk, match_zfl_none]
            dsimp only
            have hrem : (offset - n) % n < n := Nat.mod_lt _ hn
            have hbuf4 : writeAt (ex ++ List.replicate (n - ex.length) 0) 0
                (List.replicate ((offset - n) % n) 0) =
                List.replicate ((offset - n) % n) 0 ++
                  (ex ++ List.replicate (n - ex.length) 0).drop ((offset - n) % n) := by
              simp [writeAt]
            rw [hbuf4]
            have hmod : (offset - n) % n = offset % n := by
              conv_rhs => rw [show offset = n + (offset - n) by omega]
              rw [Nat.add_mod_left]
            rw [← hmod]
            obtain ⟨st', hstt, h1, h2, h3⟩ := streamTail_allOk hn hrem eEnd
              ⟨B, 0, 2 + (offset - n) / n,
               [ex ++ List.replicate (n - ex.length) 0] ++
                 List.replicate ((offset - n) / n) (List.replicate n 0),
               List.replicate ((offset - n) % n) 0 ++
                 (ex ++ List.replicate (n - ex.length) 0).drop ((offset - n) % n),
               none⟩
              (by simp; omega) rfl rfl
            rw [hstt]
            refine ⟨st', rfl, h1, by simpa using h2, ?_⟩
            intro hE hB
            have hfl := h3 hE
            dsimp only at hfl
            rw [if_neg hB] at hfl
            rw [take_append_of_length
              (show (List.replicate ((offset - n) % n) (0 : Byte)).length =
                (offset - n) % n from by simp)] at hfl
            constructor
            · rw [hfl]; simp
            · rw [hfl]
              simp only [List.flatten_append, List.flatten_cons, flatten_chunksOf hn,
                flatten_replicate_zeros, List.flatten_nil, List.append_nil,
                List.singleton_append, List.cons_append, List.nil_append,
                List.append_assoc, List.take_append_drop]
              rw [zeros_chain2, zeros_chain2]
              have hdm : n * ((offset - n) / n) + (offset - n) % n = offset - n :=
                Nat.div_add_mod _ _
              have harith : (n - ex.length) + (offset - n) / n * n + (offset - n) % n =
                  offset - ex.length := by
                rw [Nat.mul_comm]
                omega
              rw [harith, List.take_of_length_le (show ex.length ≤ offset by omega)]
        · -- case 5
          rw [wsBody_case5 rfl h0 hle hclt]
          rw [fromZeroFillLarge_allOk, match_zfl_none]
          dsimp only
          have hrem : (offset - ex.length) % n < n := Nat.mod_lt _ hn
          have hbuf5 : writeAt (List.replicate n 0) 0
              (List.replicate ((offset - ex.length) % n) (0 : Byte)) =
              List.replicate ((offset - ex.length) % n) 0 ++
                List.replicate (n - (offset - ex.length) % n) 0 := by
            rw [writeAt_zero_replicate]
            simp
          rw [hbuf5]
          obtain ⟨st', hstt, h1, h2, h3⟩ := streamTail_allOk hn hrem eEnd
            ⟨B, 0, 2 + (offset - ex.length) / n,
             [ex] ++ List.replicate ((offset - ex.length) / n) (List.replicate n 0),
             List.replicate ((offset - ex.length) % n) 0 ++
               List.replicate (n - (offset - ex.length) % n) 0,
             none⟩
            (by simp; omega) rfl rfl
          rw [hstt]
          refine ⟨st', rfl, h1, by simpa using h2, ?_⟩
          intro hE hB
          have hfl := h3 hE
          dsimp only at hfl
          rw [if_neg hB] at hfl
          rw [take_append_of_length
            (show (List.replicate ((offset - ex.length) % n) (0 : Byte)).length =
              (offset - ex.length) % n from by simp)] at hfl
          constructor
          · rw [hfl]; simp
          · rw [hfl]
            simp only [List.flatten_append, List.flatten_cons, flatten_chunksOf hn,
              flatten_replicate_zeros, List.flatten_nil, List.append_nil,
              List.singleton_append, List.cons_append, List.nil_append,
              List.append_assoc, List.take_append_drop]
            rw [zeros_chain2]
            have hdm : n * ((offset - ex.length) / n) + (offset - ex.length) % n =
                offset - ex.length := Nat.div_add_mod _ _
            have harith : (offset - ex.length) / n * n + (offset - ex.length) % n =
                offset - ex.length := by
              rw [Nat.mul_comm]
              omega
            rw [harith, List.take_of_length_le (show ex.length ≤ offset by omega)]

/-! ### Failure propagation: failed part uploads and copy-parts -/

theorem failPut_initOk : Backend.failPut.initOk = true := rfl

theorem failPut_copyOk : Backend.failPut.copyOk = true := rfl

theorem failCopy_copyOk : Backend.failCopy.copyOk = false := rfl

theorem failCopy_initOk : Backend.failCopy.initOk = true := rfl

theorem resolvePending_none {be : Backend} {st : WSt} (hp : st.pending = none) :
    resolvePending be st = (st, none) := by
  simp [resolvePending, hp]

theorem resolvePending_failPut_live {st : WSt} {br fr : Nat} {b : List Byte}
    (hp : st.pending = some (br, fr, b)) (hbr : 0 < br) :
    resolvePending .failPut st =
      ({ st with pending := none, parts := st.parts ++ [[]],
                 partNumber := st.partNumber + 1 }, some .putPartErr) := by
  simp [resolvePending, hp, hbr, failPut_putPartOk]

theorem WriteStream_err_eq {be : Backend} {n : Nat} {bucket : Option (List Byte)}
    {offset : Nat} {src : Source} {st : WSt} {c : Nat} {e : Option WErr}
    (hinit : be.initOk = true)
    (hbody : wsBody be n bucket offset src = (st, c, e)) :
    (WriteStream be n bucket offset src).err =
      (match (resolvePending be st).2 with
       | some pe => some pe
       | none => e) := by
  rw [WriteStream]
  simp only [hinit, if_true, hbody]
  rcases hre : resolvePending be st with ⟨st1, e2⟩
  split_ifs <;> rfl

theorem WriteStream_full_eq {be : Backend} {n : Nat} {bucket : Option (List Byte)}
    {offset : Nat} {src : Source} {st : WSt} {c : Nat} {e : Option WErr}
    (hinit : be.initOk = true)
    (hbody : wsBody be n bucket offset src = (st, c, e))
    (hp : st.pending = none) (hparts : st.parts = []) :
    WriteStream be n bucket offset src =
      { consumed := c, err := e, bucketAfter := bucket,
        multi := .pendingSession, srcLeft := st.src } := by
  rw [WriteStream]
  simp only [hinit, if_true, hbody, resolvePending_none hp]
  simp [hparts]

theorem zeroFillLoop_failPut {n : Nat} {st : WSt} {k : Nat} (hk : 0 < k) :
    zeroFillLoop .failPut n st k = (st, some .putPartErr) := by
  match k, hk with
  | k + 1, _ =>
    rw [zeroFillLoop]
    simp [failPut_putPartOk]

theorem fromZeroFillLarge_failPut_zero {n fr hi : Nat} {st : WSt}
    (h : (hi - fr) / n = 0) :
    fromZeroFillLarge .failPut n fr hi st =
      (fromZeroFillSmall 0 ((hi - fr) % n) st, none) := by
  rw [fromZeroFillLarge, h]
  rfl

theorem fromZeroFillLarge_failPut_pos {n fr hi : Nat} {st : WSt}
    (h : 0 < (hi - fr) / n) :
    fromZeroFillLarge .failPut n fr hi st = (st, some .putPartErr) := by
  rw [fromZeroFillLarge, zeroFillLoop_failPut h]

theorem mainLoop_failPut {n : Nat} (hn : 0 < n) :
    ∀ (f : Nat) (st : WSt), st.src.length < f →
      ((st.pending = none ∧ 0 < st.src.length) ∨
       (∃ br fr b, st.pending = some (br, fr, b) ∧ 0 < br)) →
      ∃ st' e, mainLoop .failPut false n f st = (st', e) ∧
        ((e = some .putPartErr ∧ st'.pending = none) ∨
         (e = none ∧ ∃ br fr b, st'.pending = some (br, fr, b) ∧ 0 < br)) := by
  intro f
  induction f with
  | zero => intro st h; omega
  | succ f ih =>
    intro st h hcase
    have hok : ¬((st.src.take (n - 0)).length < n - 0 ∧ (false : Bool) = true) := by simp
    rcases hcase with ⟨hp, hpos⟩ | ⟨br, fr, b, hp, hbr⟩
    · -- no outstanding upload yet; this read creates a live one
      rw [mainLoop, fromReader_failPut_none hok hp]
      simp only [Nat.sub_zero]
      have hg : 0 < (st.src.take n).length := by
        rw [List.length_take]
        omega
      by_cases hbr2 : (st.src.take n).length < n
      · rw [if_pos hbr2]
        exact ⟨_, none, rfl, Or.inr ⟨rfl, _, _, _, rfl, hg⟩⟩
      · rw [if_neg hbr2]
        apply ih
        · simp only [List.length_drop]
          have := List.length_take n st.src
          omega
        · exact Or.inr ⟨_, _, _, rfl, hg⟩
    · -- the outstanding upload fails when observed
      rw [mainLoop, fromReader_failPut_live hok hp hbr]
      simp only [Nat.sub_zero]
      exact ⟨_, some .putPartErr, rfl, Or.inl ⟨rfl, rfl⟩⟩

theorem runMain_failPut {n : Nat} (hn : 0 < n) (st : WSt)
    (hcase : (st.pending = none ∧ 0 < st.src.length) ∨
      (∃ br fr b, st.pending = some (br, fr, b) ∧ 0 < br)) :
    ∃ st' c e, runMain .failPut false n st = (st', c, e) ∧
      ((e = some .putPartErr ∧ st'.pending = none) ∨
       (e = none ∧ ∃ br fr b, st'.pending = some (br, fr, b) ∧ 0 < br)) := by
  obtain ⟨st', e, hml, hout⟩ :=
    mainLoop_failPut hn (st.src.length + 1) st (Nat.lt_succ_self _) hcase
  exact ⟨st', st'.totalRead, e, by simp [runMain, hml], hout⟩

theorem streamTail_failPut {n fr : Nat} (hn : 0 < n) (hfr : fr < n) (st : WSt)
    (hp : st.pending = none) (hpos : 0 < st.src.length) :
    ∃ st' c e, streamTail .failPut false n fr st = (st', c, e) ∧
      ((e = some .putPartErr ∧ st'.pending = none) ∨
       (e = none ∧ ∃ br fr b, st'.pending = some (br, fr, b) ∧ 0 < br)) := by
  have hok : ¬((st.src.take (n - fr)).length < n - fr ∧ (false : Bool) = true) := by simp
  have hg : 0 < (st.src.take (n - fr)).length := by
    rw [List.length_take]
    omega
  by_cases hcond : st.totalRead + (st.src.take (n - fr)).length + fr < n
  · rw [streamTail_early (fromReader_failPut_none hok hp) hcond]
    refine ⟨_, _, none, rfl, Or.inr ⟨rfl, (st.src.take (n - fr)).length, fr,
      writeAt st.buf fr (st.src.take (n - fr)), ?_, hg⟩⟩
    rfl
  · rw [streamTail_loop (fromReader_failPut_none hok hp) hcond]
    obtain ⟨st', c, e, hrm, hout⟩ := runMain_failPut hn
      ⟨st.src.drop (n - fr), st.totalRead + (st.src.take (n - fr)).length,
       st.partNumber, st.parts, List.replicate n 0,
       some ((st.src.take (n - fr)).length, fr, writeAt st.buf fr (st.src.take (n - fr)))⟩
      (Or.inr ⟨_, _, _, rfl, hg⟩)
    exact ⟨st', c, e, hrm, hout⟩

theorem match_zfl_some {be : Backend} {eEnd : Bool} {n fr : Nat} {st4 : WSt} {e : WErr} :
    (match ((st4 : WSt), (some e : Option WErr)) with
     | (st4', some e') => (st4', st4'.totalRead, some e')
     | (st4', none) => streamTail be eEnd n fr st4') =
      (st4, st4.totalRead, some e) := rfl

theorem wsBody_case3_copyFail {be : Backend} {n offset : Nat} {ex : List Byte}
    {src : Source} (hcopy : be.copyOk = false) (h0 : 0 < offset)
    (hle : offset ≤ ex.length) (hnlt : ¬ offset < n) :
    wsBody be n (some ex) offset src =
      (⟨src.bytes, 0, 1, [], List.replicate n 0, none⟩, 0, some .copyErr) := by
  simp [wsBody, h0, hle, hnlt, hcopy]

theorem wsBody_case5_copyFail {be : Backend} {n offset : Nat} {ex : List Byte}
    {src : Source} (hcopy : be.copyOk = false) (h0 : 0 < offset)
    (hgt : ¬ offset ≤ ex.length) (hnclt : ¬ ex.length < n) :
    wsBody be n (some ex) offset src =
      (⟨src.bytes, 0, 1, [], List.replicate n 0, none⟩, 0, some .copyErr) := by
  simp [wsBody, h0, hgt, hnclt, hcopy]

theorem wsBody_case4b_putFail {be : Backend} {n offset : Nat} {ex : List Byte}
    {src : Source} (hput : be.putPartOk 1 = false) (h0 : 0 < offset)
    (hgt : ¬ offset ≤ ex.length) (hclt : ex.length < n) (hnlt : ¬ offset < n) :
    wsBody be n (some ex) offset src =
      (⟨src.bytes, 0, 1, [],
        writeAt (writeAt (List.replicate n 0) 0 (ex.take ex.length)) ex.length
          (List.replicate (n - ex.length) 0), none⟩,
       0, some .putPartErr) := by
  simp [wsBody, fromSmallCurrent, fromZeroFillSmall, h0, hgt, hclt, hnlt, hput]

theorem failPut_err_of_out {n : Nat} {bucket : Option (List Byte)} {offset : Nat}
    {src : Source} {st : WSt} {c : Nat} {e : Option WErr}
    (hbody : wsBody .failPut n bucket offset src = (st, c, e))
    (hout : (e = some .putPartErr ∧ st.pending = none) ∨
            (e = none ∧ ∃ br fr b, st.pending = some (br, fr, b) ∧ 0 < br)) :
    (WriteStream .failPut n bucket offset src).err = some .putPartErr := by
  rw [WriteStream_err_eq failPut_initOk hbody]
  rcases hout with ⟨he, hp⟩ | ⟨he, br, fr, b, hp, hbr⟩
  · rw [resolvePending_none hp, he]
  · rw [resolvePending_failPut_live hp hbr]

/-- C3 (amended): with the completion call excluded, failures in the write
pipeline are surfaced: (1) when every `PutPart` fails, any call that
streams at least one byte (object present, or offset 0) returns
`putPartErr` — covering the background part uploads of all five cases,
the direct first-chunk upload of case 4, and the zero-fill parts; (2)
when `PutPartCopy` fails, the copy-part cases (3 and 5) return
`copyErr` with zero bytes consumed, the pre-existing object untouched
and, since no part was recorded, the session left pending.  A failure
of the final completion call alone is NOT surfaced (see the
counterexample theorem): the session is aborted and the call reports
success. -/
theorem C3_part_and_copy_failures_surfaced {n : Nat} (hn : 0 < n) :
    (∀ (bucket : Option (List Byte)) (offset : Nat) (B : List Byte),
      B ≠ [] → (bucket = none → offset = 0) →
      (WriteStream .failPut n bucket offset ⟨B, false⟩).err = some .putPartErr) ∧
    (∀ (ex B : List Byte) (offset : Nat) (eEnd : Bool),
      (n ≤ offset ∧ offset ≤ ex.length) ∨ (ex.length < offset ∧ n ≤ ex.length) →
      WriteStream .failCopy n (some ex) offset ⟨B, eEnd⟩ =
        { consumed := 0, err := some .copyErr, bucketAfter := some ex,
          multi := .pendingSession, srcLeft := B }) := by
  constructor
  · intro bucket offset B hB hb
    have hpos : 0 < B.length := List.length_pos.mpr hB
    rcases Nat.eq_zero_or_pos offset with h0 | h0
    · subst h0
      obtain ⟨st', c, e, hrm, hout⟩ := runMain_failPut hn
        ⟨B, 0, 1, [], List.replicate n 0, none⟩ (Or.inl ⟨rfl, hpos⟩)
      exact failPut_err_of_out (by rw [wsBody_offset0]; exact hrm) hout
    · cases bucket with
      | none => exact absurd (hb rfl) (by omega)
      | some ex =>
        by_cases hle : offset ≤ ex.length
        · by_cases hlt : offset < n
          · obtain ⟨st', c, e, hstt, hout⟩ := streamTail_failPut hn hlt
              ⟨B, 0, 1, [], writeAt (List.replicate n 0) 0 (ex.take offset), none⟩ rfl hpos
            exact failPut_err_of_out (by rw [wsBody_case2 h0 hle hlt]; exact hstt) hout
          · obtain ⟨st', c, e, hrm, hout⟩ := runMain_failPut hn
              ⟨B, 0, 2, [ex.take offset], List.replicate n 0, none⟩ (Or.inl ⟨rfl, hpos⟩)
            exact failPut_err_of_out
              (by rw [wsBody_case3 failPut_copyOk h0 hle hlt]; exact hrm) hout
        · by_cases hclt : ex.length < n
          · by_cases holt : offset < n
            · obtain ⟨st', c, e, hstt, hout⟩ := streamTail_failPut hn holt
                ⟨B, 0, 1, [],
                 writeAt (writeAt (List.replicate n 0) 0 (ex.take ex.length)) ex.length
                   (List.replicate (offset - ex.length) 0), none⟩ rfl hpos
              exact failPut_err_of_out
                (by rw [wsBody_case4a h0 hle hclt holt]; exact hstt) hout
            · exact failPut_err_of_out
                (wsBody_case4b_putFail (failPut_putPartOk 1) h0 hle hclt holt)
                (Or.inl ⟨rfl, rfl⟩)
          · by_cases hq : (offset - ex.length) / n = 0
            · have hrem : (offset - ex.length) % n < n := Nat.mod_lt _ hn
              obtain ⟨st', c, e, hstt, hout⟩ := streamTail_failPut hn hrem
                (fromZeroFillSmall 0 ((offset - ex.length) % n)
                  ⟨B, 0, 2, [ex], List.replicate n 0, none⟩) rfl hpos
              have hbody : wsBody .failPut n (some ex) offset ⟨B, false⟩ = (st', c, e) := by
                rw [wsBody_case5 failPut_copyOk h0 hle hclt,
                  fromZeroFillLarge_failPut_zero hq, match_zfl_none]
                exact hstt
              exact failPut_err_of_out hbody hout
            · have hbody : wsBody .failPut n (some ex) offset ⟨B, false⟩ =
                  (⟨B, 0, 2, [ex], List.replicate n 0, none⟩, 0, some .putPartErr) := by
                rw [wsBody_case5 failPut_copyOk h0 hle hclt,
                  fromZeroFillLarge_failPut_pos (Nat.pos_of_ne_zero hq),
                  @match_zfl_some Backend.failPut false n ((offset - ex.length) % n) _ _]
              exact failPut_err_of_out hbody (Or.inl ⟨rfl, rfl⟩)
  · intro ex B offset eEnd hcopy
    rcases hcopy with ⟨hno, hle⟩ | ⟨hgt, hnl⟩
    · have h0 : 0 < offset := by omega
      rw [WriteStream_full_eq failCopy_initOk
        (wsBody_case3_copyFail failCopy_copyOk h0 hle (by omega)) rfl rfl]
    · have h0 : 0 < offset := by omega
      rw [WriteStream_full_eq failCopy_initOk
        (wsBody_case5_copyFail failCopy_copyOk h0 (by omega) (by omega)) rfl rfl]

/-- Witness for C3 (amended): with chunk size 2, a failing `PutPart`
surfaces `putPartErr` for a one-byte stream at offset 0, and a failing
`PutPartCopy` surfaces `copyErr` for a write at offset 2 over the
3-byte object `[1, 2, 3]`. -/
theorem C3_part_and_copy_failures_surfaced_witness :
    (WriteStream .failPut 2 none 0 ⟨[5], false⟩).err = some .putPartErr ∧
    WriteStream .failCopy 2 (some [1, 2, 3]) 2 ⟨[9], false⟩ =
      { consumed := 0, err := some .copyErr, bucketAfter := some [1, 2, 3],
        multi := .pendingSession, srcLeft := [9] } := by
  have h := C3_part_and_copy_failures_surfaced (show (0 : Nat) < 2 by decide)
  exact ⟨h.1 none 0 [5] (by decide) (fun _ => rfl),
         h.2 [1, 2, 3] [9] 2 false (Or.inl ⟨by decide, by decide⟩)⟩

/-- C1 (amended): for every chunk size `n ≥ 1`, every offset, every
bucket state (an object must exist at the path when `offset > 0`,
otherwise the call fails with `NotFound`), and every source that yields
at least one byte before EOF, `WriteStream` on an honestly-behaving
backend succeeds and produces a final object whose bytes equal the
existing bytes in `[0, offset)` — zero-padded when the existing object
is shorter than `offset` — followed by all bytes read from the source,
across all five algorithm cases; it consumes exactly the source's
bytes. -/
theorem C1_write_pipeline_content {n : Nat} (bucket : Option (List Byte))
    (offset : Nat) (B : List Byte) (hn : 0 < n) (hB : B ≠ [])
    (hmiss : bucket = none → offset = 0) :
    (WriteStream .allOk n bucket offset ⟨B, false⟩).err = none ∧
    (WriteStream .allOk n bucket offset ⟨B, false⟩).bucketAfter =
      some ((bucket.getD []).take offset ++
        List.replicate (offset - (bucket.getD []).length) 0 ++ B) ∧
    (WriteStream .allOk n bucket offset ⟨B, false⟩).consumed = B.length ∧
    (WriteStream .allOk n bucket offset ⟨B, false⟩).srcLeft = [] := by
  obtain ⟨st, hbody, hsrc, htr, hflush⟩ :=
    wsBody_allOk_master hn bucket offset B false hmiss
  obtain ⟨hne, hflat⟩ := hflush rfl hB
  rw [WriteStream_allOk_eq hbody]
  simp [hne, hflat, htr, hsrc]

/-- Witness for C1 (amended) exercising the zero-fill case: chunk size 3,
existing object `[1, 2]`, offset 5, source `[7, 8]` produce
`[1, 2, 0, 0, 0, 7, 8]`. -/
theorem C1_write_pipeline_content_witness :
    (WriteStream .allOk 3 (some [1, 2]) 5 ⟨[7, 8], false⟩).err = none ∧
    (WriteStream .allOk 3 (some [1, 2]) 5 ⟨[7, 8], false⟩).bucketAfter =
      some [1, 2, 0, 0, 0, 7, 8] := by
  have h := @C1_write_pipeline_content 3 (some [1, 2]) 5 [7, 8] (by decide) (by decide)
    (fun hc => by cases hc)
  refine ⟨h.1, ?_⟩
  rw [h.2.1]
  rfl

/-- C4: for every chunk size `n ≥ 1` and every source that yields `N`
bytes and then reports a read error (with an object present, or offset
0), `WriteStream` on an otherwise-honest backend returns exactly
`consumed = N` — not 0 and not the target length — alongside the
error. -/
theorem C4_consumed_equals_bytes_read {n : Nat} (bucket : Option (List Byte))
    (offset : Nat) (B : List Byte) (hn : 0 < n)
    (hmiss : bucket = none → offset = 0) :
    (WriteStream .allOk n bucket offset ⟨B, true⟩).consumed = B.length ∧
    (WriteStream .allOk n bucket offset ⟨B, true⟩).err = some .srcErr := by
  obtain ⟨st, hbody, hsrc, htr, _⟩ :=
    wsBody_allOk_master hn bucket offset B true hmiss
  rw [WriteStream_allOk_eq hbody]
  simp [htr]

/-- Witness for C4: chunk size 2, existing object `[1, 2, 3]`, offset 1,
source erroring after `[7, 8, 9]`: consumed is 3, with the error. -/
theorem C4_consumed_equals_bytes_read_witness :
    (WriteStream .allOk 2 (some [1, 2, 3]) 1 ⟨[7, 8, 9], true⟩).consumed = 3 ∧
    (WriteStream .allOk 2 (some [1, 2, 3]) 1 ⟨[7, 8, 9], true⟩).err =
      some .srcErr := by
  have h := @C4_consumed_equals_bytes_read 2 (some [1, 2, 3]) 1 [7, 8, 9] (by decide)
    (fun hc => by cases hc)
  exact ⟨h.1, h.2⟩

/-! ### Delete: page-at-a-time recursion and the swallowed bulk-delete error -/

theorem contains_of_mem {l : List Str} {a : Str} (h : a ∈ l) : l.contains a = true := by
  simp [List.contains, List.elem_iff, h]

theorem mem_of_contains {l : List Str} {a : Str} (h : l.contains a = true) : a ∈ l := by
  simpa [List.contains, List.elem_iff] using h

theorem matchingPage_isEmpty_iff {keys : List Str} {pre : Str} :
    (matchingPage keys pre).isEmpty = true ↔
      keys.filter (fun k => pre.isPrefixOf k) = [] := by
  rw [List.isEmpty_iff, matchingPage, List.take_eq_nil_iff]
  simp [listMax]

theorem mem_matchingPage {keys : List Str} {pre k : Str}
    (h : k ∈ matchingPage keys pre) : k ∈ keys ∧ pre.isPrefixOf k = true := by
  have h2 := List.mem_of_mem_take h
  have h3 := List.mem_filter.mp h2
  exact ⟨h3.1, h3.2⟩

theorem deleteLoop_ok (pre : Str) :
    ∀ (f : Nat) (keys : List Str), keys.length < f →
      deleteLoop true pre f keys =
        (keys.filter (fun k => ¬ pre.isPrefixOf k), .ok) := by
  intro f
  induction f with
  | zero => intro keys h; omega
  | succ f ih =>
    intro keys h
    rw [deleteLoop]
    by_cases hemp : (matchingPage keys pre).isEmpty = true
    · rw [if_pos hemp]
      have hfil := List.filter_eq_nil_iff.mp (matchingPage_isEmpty_iff.mp hemp)
      have hkeep : keys.filter (fun k => ¬ pre.isPrefixOf k) = keys := by
        apply List.filter_eq_self.mpr
        intro a ha
        simpa using hfil a ha
      rw [hkeep]
    · rw [if_neg hemp]
      simp only [if_true]
      have hne : matchingPage keys pre ≠ [] := by
        simpa [List.isEmpty_iff] using hemp
      have hhead := List.head_mem hne
      obtain ⟨hmem, hmatch⟩ := mem_matchingPage hhead
      have hlt : (keys.filter
          (fun k => ¬ (matchingPage keys pre).contains k)).length < keys.length := by
        apply List.length_filter_lt_length_iff_exists.mpr
        refine ⟨(matchingPage keys pre).head hne, hmem, ?_⟩
        simp [contains_of_mem hhead]
      rw [ih _ (by omega)]
      congr 1
      rw [List.filter_filter]
      apply List.filter_congr
      intro a ha
      cases hm : pre.isPrefixOf a with
      | true => simp [hm]
      | false =>
        have hnp : a ∉ matchingPage keys pre := by
          intro hc
          rw [(mem_matchingPage hc).2] at hm
          cases hm
        have : (matchingPage keys pre).contains a = false := by
          cases hc : (matchingPage keys pre).contains a
          · rfl
          · exact absurd (mem_of_contains hc) hnp
        simp [hm, this]
        exact hnp

/-- C5 (failing-input evaluation): `Delete` on a one-key bucket whose
bulk-delete call fails returns success (`return nil`) with the key still
present — the backend failure is discarded, not passed through. -/
theorem C5_delete_swallows_bulk_delete_error :
    DeleteModel false [[107]] [107] = ([[107]], .ok) := by
  decide

/-- C6: with a reliable backend, `Delete(path)` returns `NotFound`
exactly when no bucket key carries the prefix `s3Path(path)`; otherwise
it loops page by page, removes every key carrying the prefix, and
returns success. -/
theorem C6_delete_recursive (keys : List Str) (path : Str) :
    ((DeleteModel true keys path).2 = .notFound ↔
      keys.filter (fun k => (s3Path path).isPrefixOf k) = []) ∧
    (keys.filter (fun k => (s3Path path).isPrefixOf k) ≠ [] →
      DeleteModel true keys path =
        (keys.filter (fun k => ¬ (s3Path path).isPrefixOf k), .ok)) := by
  by_cases hemp : (matchingPage keys (s3Path path)).isEmpty = true
  · have hfil := matchingPage_isEmpty_iff.mp hemp
    constructor
    · rw [DeleteModel]
      simp only [if_pos hemp]
      exact ⟨fun _ => hfil, fun _ => trivial⟩
    · intro hne
      exact absurd hfil hne
  · have hfil : keys.filter (fun k => (s3Path path).isPrefixOf k) ≠ [] := by
      intro hc
      exact hemp (matchingPage_isEmpty_iff.mpr hc)
    have hrun : DeleteModel true keys path =
        (keys.filter (fun k => ¬ (s3Path path).isPrefixOf k), .ok) := by
      rw [DeleteModel]
      simp only [if_neg hemp]
      exact deleteLoop_ok _ _ _ (Nat.lt_succ_self _)
    constructor
    · rw [hrun]
      simp [hfil]
    · intro _
      exact hrun

/-- Witness for C6 over the bucket `{"a", "a/b", "c"}` (as byte strings):
deleting `"a"` removes `"a"` and `"a/b"` and succeeds, and deleting
`"d"` reports `NotFound`. -/
theorem C6_delete_recursive_witness :
    DeleteModel true [[97], [97, 47, 98], [99]] [97] = ([[99]], .ok) ∧
    (DeleteModel true [[97], [97, 47, 98], [99]] [100]).2 = .notFound := by
  constructor
  · have h := (C6_delete_recursive [[97], [97, 47, 98], [99]] [97]).2 (by decide)
    rw [h]
    rfl
  · exact (C6_delete_recursive [[97], [97, 47, 98], [99]] [100]).1.mpr (by decide)

/-! ### Stat: limit-1 listing and file/directory disambiguation -/

theorem lexLt_not_of_isPrefixOf : ∀ {p k : Str}, p.isPrefixOf k = true → lexLt k p = false
  | [], [] => fun _ => rfl
  | [], _ :: _ => fun _ => rfl
  | _ :: _, [] => fun h => by cases h
  | a :: ps, b :: ks => fun h => by
    rw [List.isPrefixOf] at h
    obtain ⟨h1, h2⟩ := Bool.and_eq_true_iff.mp h
    have hab : a = b := by simpa using h1
    subst hab
    rw [lexLt]
    simp only [lt_irrefl, if_false]
    exact lexLt_not_of_isPrefixOf h2

theorem stat_filter_exact {pre : Str} :
    ∀ {bucket : List SObj},
      List.Pairwise (fun a b => lexLt a.key b.key = true) bucket →
      ∀ {o : SObj}, o ∈ bucket → o.key = pre →
        (bucket.filter fun x => pre.isPrefixOf x.key).take 1 = [o] := by
  intro bucket
  induction bucket with
  | nil => intro _ o ho; cases ho
  | cons x xs ih =>
    intro hs o ho hk
    obtain ⟨hx, hxs⟩ := List.pairwise_cons.mp hs
    rcases List.mem_cons.mp ho with ho | ho
    · subst ho
      have hpos : pre.isPrefixOf o.key = true := by
        rw [hk]
        exact List.isPrefixOf_iff_prefix.mpr (List.prefix_refl pre)
      rw [@List.filter_cons_of_pos SObj (fun x => pre.isPrefixOf x.key) o xs hpos]
      rfl
    · have hxo := hx o ho
      rw [hk] at hxo
      have hxm : pre.isPrefixOf x.key = false := by
        cases hpm : pre.isPrefixOf x.key
        · rfl
        · rw [lexLt_not_of_isPrefixOf hpm] at hxo
          cases hxo
      rw [@List.filter_cons_of_neg SObj (fun x => pre.isPrefixOf x.key) x xs
        (by simp [hxm])]
      exact ih hxs ho hk

/-- C7: with the bucket's keys strictly sorted (as S3 lists them), `Stat`
performs a limit-1 list at the exact key and: an exact key match
reports a file (`IsDir = false`) with that object's size and
modification time; a path that is a prefix of stored keys but not
itself a key reports `IsDir = true`; a path matching nothing reports
`PathNotFoundError`. -/
theorem C7_stat_disambiguation (bucket : List SObj) (path : Str)
    (hs : List.Pairwise (fun a b => lexLt a.key b.key = true) bucket) :
    (∀ o ∈ bucket, o.key = s3Path path →
      Stat bucket path = some ⟨path, o.size, o.modTime, false⟩) ∧
    ((∀ o ∈ bucket, o.key ≠ s3Path path) →
      (∃ o ∈ bucket, (s3Path path).isPrefixOf o.key = true) →
      Stat bucket path = some ⟨path, 0, 0, true⟩) ∧
    ((∀ o ∈ bucket, (s3Path path).isPrefixOf o.key = false) →
      Stat bucket path = none) := by
  refine ⟨?_, ?_, ?_⟩
  · intro o ho hk
    rw [Stat]
    rw [stat_filter_exact hs ho hk]
    simp [hk]
  · intro hnone ⟨o, ho, hm⟩
    have hne : bucket.filter (fun x => (s3Path path).isPrefixOf x.key) ≠ [] :=
      List.ne_nil_of_mem (List.mem_filter.mpr ⟨ho, hm⟩)
    rw [Stat]
    cases hf : bucket.filter (fun x => (s3Path path).isPrefixOf x.key) with
    | nil => exact absurd hf hne
    | cons y ys =>
      have hy : y ∈ bucket.filter (fun x => (s3Path path).isPrefixOf x.key) := by
        rw [hf]; exact List.mem_cons_self y ys
      have hyk : y.key ≠ s3Path path := hnone y (List.mem_filter.mp hy).1
      simp [hyk]
  · intro hnone
    have hf : bucket.filter (fun x => (s3Path path).isPrefixOf x.key) = [] := by
      apply List.filter_eq_nil_iff.mpr
      intro o ho
      simp [hnone o ho]
    rw [Stat, hf]
    rfl

/-- Witness for C7 over the sorted bucket `{"a/b" (size 5, mtime 10),
"a/b/c" (size 7, mtime 20)}`: `Stat "/a/b"` is a file with size 5 and
mtime 10, `Stat "/a"` is a directory, and `Stat "/z"` is `NotFound`. -/
theorem C7_stat_disambiguation_witness :
    Stat [⟨[97, 47, 98], 5, 10⟩, ⟨[97, 47, 98, 47, 99], 7, 20⟩] [47, 97, 47, 98] =
      some ⟨[47, 97, 47, 98], 5, 10, false⟩ ∧
    Stat [⟨[97, 47, 98], 5, 10⟩, ⟨[97, 47, 98, 47, 99], 7, 20⟩] [47, 97] =
      some ⟨[47, 97], 0, 0, true⟩ ∧
    Stat [⟨[97, 47, 98], 5, 10⟩, ⟨[97, 47, 98, 47, 99], 7, 20⟩] [47, 122] = none := by
  refine ⟨?_, ?_, ?_⟩
  · exact (C7_stat_disambiguation _ _ (by decide)).1 ⟨[97, 47, 98], 5, 10⟩
      (by decide) (by decide)
  · exact (C7_stat_disambiguation _ _ (by decide)).2.1 (by decide)
      ⟨⟨[97, 47, 98], 5, 10⟩, by decide, by decide⟩
  · exact (C7_stat_disambiguation _ _ (by decide)).2.2 (by decide)

/-! ### List: the lexicographic listing order -/

theorem lexLt_nil_pos {l : Str} (h : l ≠ []) : lexLt [] l = true := by
  cases l with
  | nil => exact absurd rfl h
  | cons a as => rfl

theorem lexLt_irrefl : ∀ (l : Str), lexLt l l = false
  | [] => rfl
  | a :: as => by
    rw [lexLt]
    simp [lexLt_irrefl as]

theorem lexLt_asymm : ∀ {a b : Str}, lexLt a b = true → lexLt b a = false
  | [], [], h => by cases h
  | [], _ :: _, _ => rfl
  | _ :: _, [], h => by cases h
  | x :: xs, y :: ys, h => by
    rw [lexLt] at h ⊢
    by_cases hxy : x < y
    · simp [hxy, Nat.lt_asymm hxy, Nat.ne_of_lt hxy]
    · by_cases hyx : y < x
      · rw [if_neg hxy, if_pos hyx] at h
        cases h
      · rw [if_neg hxy, if_neg hyx] at h
        rw [if_neg hyx, if_neg hxy]
        exact lexLt_asymm h

theorem lexLt_trans : ∀ {a b c : Str},
    lexLt a b = true → lexLt b c = true → lexLt a c = true
  | [], [], _, h, _ => by cases h
  | [], _ :: _, [], _, h => by cases h
  | [], _ :: _, _ :: _, _, _ => rfl
  | _ :: _, [], _, h, _ => by cases h
  | _ :: _, _ :: _, [], _, h => by cases h
  | x :: xs, y :: ys, z :: zs, h1, h2 => by
    rw [lexLt] at h1 h2 ⊢
    rcases Nat.lt_trichotomy x y with hxy | hxy | hxy
    · rcases Nat.lt_trichotomy y z with hyz | hyz | hyz
      · simp [Nat.lt_trans hxy hyz]
      · subst hyz
        simp [hxy]
      · rw [if_neg (by omega), if_pos hyz] at h2
        cases h2
    · subst hxy
      rcases Nat.lt_trichotomy x z with hxz | hxz | hxz
      · simp [hxz]
      · subst hxz
        rw [if_neg (lt_irrefl x), if_neg (lt_irrefl x)] at h1 h2 ⊢
        exact lexLt_trans h1 h2
      · rw [if_neg (by omega), if_pos hxz] at h2
        cases h2
    · rw [if_neg (by omega), if_pos hxy] at h1
      cases h1

theorem lexLt_of_proper_isPrefixOf : ∀ {p k : Str},
    p.isPrefixOf k = true → p ≠ k → lexLt p k = true
  | [], [], _, hne => absurd rfl hne
  | [], _ :: _, _, _ => rfl
  | _ :: _, [], h, _ => by cases h
  | a :: ps, b :: ks, h, hne => by
    rw [List.isPrefixOf] at h
    obtain ⟨h1, h2⟩ := Bool.and_eq_true_iff.mp h
    have hab : a = b := by simpa using h1
    subst hab
    rw [lexLt]
    simp only [lt_irrefl, if_false]
    refine lexLt_of_proper_isPrefixOf h2 ?_
    intro hc
    exact hne (by rw [hc])

/-! ### List: the common-prefix cut -/

theorem cutAtSep_of_mem : ∀ {r : Str}, sep ∈ r →
    cutAtSep r = r.takeWhile (fun a => ¬ a = sep) ++ [sep]
  | [], h => by cases h
  | a :: as, h => by
    rw [cutAtSep]
    by_cases ha : a = sep
    · subst ha
      simp [List.takeWhile_cons]
    · have has : sep ∈ as := by
        rcases List.mem_cons.mp h with hc | hc
        · exact absurd hc.symm ha
        · exact hc
      rw [if_neg ha, List.takeWhile_cons]
      simp only [ha, decide_not, decide_False]
      rw [cutAtSep_of_mem has]
      simp [ha]

theorem cutAtSep_ne_nil {r : Str} (h : sep ∈ r) : cutAtSep r ≠ [] := by
  rw [cutAtSep_of_mem h]
  simp

theorem cutAtSep_dropLast {r : Str} (h : sep ∈ r) :
    (cutAtSep r).dropLast = r.takeWhile (fun a => ¬ a = sep) := by
  rw [cutAtSep_of_mem h]
  simp

theorem lexLt_append_same : ∀ (p a b : Str), lexLt (p ++ a) (p ++ b) = lexLt a b
  | [], _, _ => rfl
  | x :: ps, a, b => by
    show lexLt (x :: (ps ++ a)) (x :: (ps ++ b)) = lexLt a b
    rw [lexLt]
    simp [lexLt_append_same ps a b]

theorem lexLt_cut_right : ∀ {r1 r2 : Str}, sep ∉ r1 → sep ∈ r2 →
    lexLt r1 r2 = true → lexLt r1 (cutAtSep r2) = true
  | [], r2, _, h2, _ => lexLt_nil_pos (cutAtSep_ne_nil h2)
  | _ :: _, [], _, h2, _ => absurd h2 (List.not_mem_nil _)
  | a :: as, b :: bs, h1, h2, h3 => by
    have ha : a ≠ sep := fun hc => h1 (by rw [hc]; exact List.mem_cons_self _ _)
    have has : sep ∉ as := fun hc => h1 (List.mem_cons_of_mem _ hc)
    rw [cutAtSep]
    by_cases hb : b = sep
    · subst hb
      rw [if_pos rfl]
      rw [lexLt] at h3 ⊢
      rcases Nat.lt_trichotomy a sep with hab | hab | hab
      · simp [hab]
      · exact absurd hab ha
      · rw [if_neg (by omega), if_pos hab] at h3
        cases h3
    · rw [if_neg hb]
      rw [lexLt] at h3 ⊢
      rcases Nat.lt_trichotomy a b with hab | hab | hab
      · simp [hab]
      · subst hab
        have hbs : sep ∈ bs := by
          rcases List.mem_cons.mp h2 with hc | hc
          · exact absurd hc.symm hb
          · exact hc
        rw [if_neg (lt_irrefl a), if_neg (lt_irrefl a)] at h3 ⊢
        exact lexLt_cut_right has hbs h3
      · rw [if_neg (by omega), if_pos hab] at h3
        cases h3

theorem lexLt_cut_left : ∀ {r1 r2 : Str}, sep ∈ r1 → sep ∉ r2 →
    lexLt r1 r2 = true → lexLt (cutAtSep r1) r2 = true
  | [], _, h1, _, _ => absurd h1 (List.not_mem_nil _)
  | _ :: _, [], _, _, h3 => by cases h3
  | a :: as, b :: bs, h1, h2, h3 => by
    have hb : b ≠ sep := fun hc => h2 (by rw [hc]; exact List.mem_cons_self _ _)
    have hbs : sep ∉ bs := fun hc => h2 (List.mem_cons_of_mem _ hc)
    rw [cutAtSep]
    by_cases ha : a = sep
    · subst ha
      rw [if_pos rfl]
      rw [lexLt] at h3 ⊢
      rcases Nat.lt_trichotomy sep b with hab | hab | hab
      · simp [hab]
      · exact absurd hab.symm hb
      · rw [if_neg (by omega), if_pos hab] at h3
        cases h3
    · rw [if_neg ha]
      rw [lexLt] at h3 ⊢
      rcases Nat.lt_trichotomy a b with hab | hab | hab
      · simp [hab]
      · subst hab
        have has : sep ∈ as := by
          rcases List.mem_cons.mp h1 with hc | hc
          · exact absurd hc.symm ha
          · exact hc
        rw [if_neg (lt_irrefl a), if_neg (lt_irrefl a)] at h3 ⊢
        exact lexLt_cut_left has hbs h3
      · rw [if_neg (by omega), if_pos hab] at h3
        cases h3

theorem lexLt_cut_both : ∀ {r1 r2 : Str}, sep ∈ r1 → sep ∈ r2 →
    lexLt r1 r2 = true →
    cutAtSep r1 = cutAtSep r2 ∨ lexLt (cutAtSep r1) (cutAtSep r2) = true
  | [], _, h1, _, _ => absurd h1 (List.not_mem_nil _)
  | _ :: _, [], _, h2, _ => absurd h2 (List.not_mem_nil _)
  | a :: as, b :: bs, h1, h2, h3 => by
    rw [cutAtSep, cutAtSep]
    by_cases ha : a = sep <;> by_cases hb : b = sep
    · subst ha; subst hb
      rw [if_pos rfl, if_pos rfl]
      exact Or.inl rfl
    · subst ha
      rw [if_pos rfl, if_neg hb]
      rw [lexLt] at h3
      rcases Nat.lt_trichotomy sep b with hab | hab | hab
      · refine Or.inr ?_
        rw [lexLt]
        simp [hab]
      · exact absurd hab.symm hb
      · rw [if_neg (by omega), if_pos hab] at h3
        cases h3
    · subst hb
      rw [if_neg ha, if_pos rfl]
      rw [lexLt] at h3
      rcases Nat.lt_trichotomy a sep with hab | hab | hab
      · refine Or.inr ?_
        rw [lexLt]
        simp [hab]
      · exact absurd hab ha
      · rw [if_neg (by omega), if_pos hab] at h3
        cases h3
    · rw [if_neg ha, if_neg hb]
      rw [lexLt] at h3
      rcases Nat.lt_trichotomy a b with hab | hab | hab
      · refine Or.inr ?_
        rw [lexLt]
        simp [hab]
      · subst hab
        have has : sep ∈ as := by
          rcases List.mem_cons.mp h1 with hc | hc
          · exact absurd hc.symm ha
          · exact hc
        have hbs : sep ∈ bs := by
          rcases List.mem_cons.mp h2 with hc | hc
          · exact absurd hc.symm hb
          · exact hc
        rw [if_neg (lt_irrefl a), if_neg (lt_irrefl a)] at h3
        rcases lexLt_cut_both has hbs h3 with hc | hc
        · exact Or.inl (by rw [hc])
        · refine Or.inr ?_
          rw [lexLt]
          rw [if_neg (lt_irrefl a), if_neg (lt_irrefl a)]
          exact hc
      · rw [if_neg (by omega), if_pos hab] at h3
        cases h3

theorem entry_mono {pre k1 k2 : Str} (h1 : pre.isPrefixOf k1 = true)
    (h2 : pre.isPrefixOf k2 = true) (hlt : lexLt k1 k2 = true) :
    entryOf pre k1 = entryOf pre k2 ∨
      lexLt (entryKey (entryOf pre k1)) (entryKey (entryOf pre k2)) = true := by
  obtain ⟨r1, rfl⟩ : ∃ r, k1 = pre ++ r := by
    obtain ⟨t, ht⟩ := List.isPrefixOf_iff_prefix.mp h1
    exact ⟨t, ht.symm⟩
  obtain ⟨r2, rfl⟩ : ∃ r, k2 = pre ++ r := by
    obtain ⟨t, ht⟩ := List.isPrefixOf_iff_prefix.mp h2
    exact ⟨t, ht.symm⟩
  have hlt' : lexLt r1 r2 = true := by
    rw [lexLt_append_same] at hlt
    exact hlt
  rw [entryOf, entryOf]
  simp only [List.drop_left]
  by_cases s1 : sep ∈ r1 <;> by_cases s2 : sep ∈ r2
  · rw [if_pos s1, if_pos s2]
    rcases lexLt_cut_both s1 s2 hlt' with hc | hc
    · exact Or.inl (by rw [hc])
    · refine Or.inr ?_
      rw [entryKey, entryKey, lexLt_append_same]
      exact hc
  · rw [if_pos s1, if_neg s2]
    refine Or.inr ?_
    rw [entryKey, entryKey, lexLt_append_same]
    exact lexLt_cut_left s1 s2 hlt'
  · rw [if_neg s1, if_pos s2]
    refine Or.inr ?_
    rw [entryKey, entryKey, lexLt_append_same]
    exact lexLt_cut_right s1 s2 hlt'
  · rw [if_neg s1, if_neg s2]
    refine Or.inr ?_
    rw [entryKey, entryKey, lexLt_append_same]
    exact hlt'

theorem mem_dedupAdj : ∀ (l : List Entry) (e : Entry), e ∈ dedupAdj l ↔ e ∈ l
  | [], e => by simp [dedupAdj]
  | [a], e => by simp [dedupAdj]
  | a :: b :: es, e => by
    rw [dedupAdj]
    by_cases hab : a = b
    · rw [if_pos hab]
      rw [mem_dedupAdj (b :: es) e]
      subst hab
      simp [List.mem_cons]
    · rw [if_neg hab]
      simp [List.mem_cons, mem_dedupAdj (b :: es) e]

theorem dedupAdj_length_le : ∀ (l : List Entry), (dedupAdj l).length ≤ l.length
  | [] => by simp [dedupAdj]
  | [a] => by simp [dedupAdj]
  | a :: b :: es => by
    rw [dedupAdj]
    by_cases hab : a = b
    · rw [if_pos hab]
      have := dedupAdj_length_le (b :: es)
      simp only [List.length_cons] at this ⊢
      omega
    · rw [if_neg hab]
      have := dedupAdj_length_le (b :: es)
      simp only [List.length_cons] at this ⊢
      omega

theorem dedupAdj_sorted : ∀ {l : List Entry},
    l.Pairwise (fun x y => x = y ∨ lexLt (entryKey x) (entryKey y) = true) →
    (dedupAdj l).Pairwise (fun x y => lexLt (entryKey x) (entryKey y) = true)
  | [], _ => by simp [dedupAdj]
  | [e], _ => by simp [dedupAdj]
  | e1 :: e2 :: es, h => by
    rw [List.pairwise_cons] at h
    obtain ⟨h1, h2⟩ := h
    have IH := dedupAdj_sorted h2
    rw [dedupAdj]
    by_cases hab : e1 = e2
    · rw [if_pos hab]
      exact IH
    · rw [if_neg hab]
      rw [List.pairwise_cons]
      refine ⟨?_, IH⟩
      intro x hx
      have hx' : x ∈ e2 :: es := (mem_dedupAdj _ x).mp hx
      rcases h1 x hx' with heq | hlt
      · subst heq
        rcases List.mem_cons.mp hx' with he2 | hes
        · exact absurd he2 hab
        · rw [List.pairwise_cons] at h2
          rcases h2.1 e1 hes with heq2 | hlt2
          · exact absurd heq2.symm hab
          · rcases h1 e2 (List.mem_cons_self _ _) with h12 | h12
            · exact absurd h12 hab
            · have := lexLt_asymm hlt2
              rw [h12] at this
              cases this
      · exact hlt

theorem dedupAdj_filterMap_content (f : Entry → Option Str)
    (hf : ∀ c, f (.commonPre c) = none) :
    ∀ (l : List Entry),
    l.Pairwise (fun x y => x = y → ∃ c, x = Entry.commonPre c) →
    (dedupAdj l).filterMap f = l.filterMap f
  | [], _ => by simp [dedupAdj]
  | [a], _ => by simp [dedupAdj]
  | a :: b :: es, h => by
    rw [List.pairwise_cons] at h
    obtain ⟨h1, h2⟩ := h
    have IH := dedupAdj_filterMap_content f hf (b :: es) h2
    rw [dedupAdj]
    by_cases hab : a = b
    · rw [if_pos hab]
      obtain ⟨c, hc⟩ := h1 b (List.mem_cons_self _ _) hab
      have hr : List.filterMap f (Entry.commonPre c :: b :: es) = List.filterMap f (b :: es) := by
        rw [List.filterMap_cons, hf]
      rw [hc, hr]
      exact IH
    · rw [if_neg hab]
      rw [List.filterMap_cons, List.filterMap_cons, IH]

theorem entriesOf_sorted {keys : List Str} {pre : Str}
    (hsort : keys.Pairwise (fun a b => lexLt a b = true)) :
    (entriesOf keys pre).Pairwise
      (fun x y => lexLt (entryKey x) (entryKey y) = true) := by
  rw [entriesOf]
  apply dedupAdj_sorted
  rw [List.pairwise_map]
  have hp1 : (keys.filter fun k => pre.isPrefixOf k).Pairwise
      (fun a b => lexLt a b = true) := hsort.filter _
  refine List.Pairwise.imp_of_mem ?_ hp1
  intro a b ha hb hr
  exact entry_mono (List.of_mem_filter ha) (List.of_mem_filter hb) hr

theorem entriesOf_key_ne_nil {keys : List Str} {pre : Str}
    (hne : ∀ k ∈ keys, k ≠ []) :
    ∀ e ∈ entriesOf keys pre, entryKey e ≠ [] := by
  intro e he
  rw [entriesOf, mem_dedupAdj] at he
  obtain ⟨k, hk, rfl⟩ := List.mem_map.mp he
  have hkk : k ∈ keys := List.mem_of_mem_filter hk
  simp only [entryOf]
  by_cases hs : sep ∈ k.drop pre.length
  · rw [if_pos hs]
    have := cutAtSep_ne_nil hs
    simp [entryKey, this]
  · rw [if_neg hs]
    simp [entryKey]
    exact hne k hkk

theorem entryOf_eq_of_ne {pre k1 k2 : Str} (hne : k1 ≠ k2)
    (he : entryOf pre k1 = entryOf pre k2) :
    ∃ c, entryOf pre k1 = .commonPre c := by
  simp only [entryOf] at he ⊢
  by_cases h1 : sep ∈ k1.drop pre.length
  · rw [if_pos h1]
    exact ⟨_, rfl⟩
  · rw [if_neg h1] at he
    by_cases h2 : sep ∈ k2.drop pre.length
    · rw [if_pos h2] at he
      cases he
    · rw [if_neg h2] at he
      cases he
      exact absurd rfl hne

theorem filterMap_content_filter (pre : Str) : ∀ (keys : List Str),
    ((keys.filter fun k => pre.isPrefixOf k).map (entryOf pre)).filterMap
        (fun e => match e with | .content k => some k | _ => none) =
      keys.filter (isChildFileKey pre)
  | [] => rfl
  | k :: ks => by
    have IH := filterMap_content_filter pre ks
    by_cases hp : pre.isPrefixOf k = true
    · by_cases hs : sep ∈ k.drop pre.length
      · have he : entryOf pre k = .commonPre (pre ++ cutAtSep (k.drop pre.length)) := by
          simp only [entryOf]
          rw [if_pos hs]
        have hc : isChildFileKey pre k = false := by
          simp [isChildFileKey, hp, List.contains, List.elem_iff, hs]
        simp only [List.filter_cons, hp, if_pos, hc, if_neg, List.map_cons,
          List.filterMap_cons, he]
        exact IH
      · have he : entryOf pre k = .content k := by
          simp only [entryOf]
          rw [if_neg hs]
        have hc : isChildFileKey pre k = true := by
          simp [isChildFileKey, hp, List.contains, List.elem_iff, hs]
        simp only [List.filter_cons, hp, if_pos, hc, List.map_cons,
          List.filterMap_cons, he]
        rw [IH]
    · have hp' : pre.isPrefixOf k = false := by
        cases hq : pre.isPrefixOf k
        · rfl
        · exact absurd hq hp
      have hc : isChildFileKey pre k = false := by
        simp [isChildFileKey, hp']
      simp only [List.filter_cons, hp', hc, Bool.false_eq_true, if_neg]
      exact IH

theorem entriesOf_content {keys : List Str} {pre : Str}
    (hsort : keys.Pairwise (fun a b => lexLt a b = true)) :
    (entriesOf keys pre).filterMap
        (fun e => match e with | .content k => some k | _ => none) =
      keys.filter (isChildFileKey pre) := by
  rw [entriesOf]
  rw [dedupAdj_filterMap_content _ (fun c => rfl)]
  · exact filterMap_content_filter pre keys
  · rw [List.pairwise_map]
    have hnd : (keys.filter fun k => pre.isPrefixOf k).Pairwise (· ≠ ·) := by
      refine List.Pairwise.imp ?_ (hsort.filter _)
      intro a b hr heq
      subst heq
      rw [lexLt_irrefl] at hr
      cases hr
    exact hnd.imp fun hab he => entryOf_eq_of_ne hab he

theorem filter_marker_nil {l : List Entry} (h : ∀ e ∈ l, entryKey e ≠ []) :
    l.filter (fun e => lexLt [] (entryKey e)) = l :=
  List.filter_eq_self.mpr fun e he => lexLt_nil_pos (h e he)

theorem filter_after_mid {l1 l2 : List Entry} {x : Entry}
    (h : (l1 ++ x :: l2).Pairwise
      (fun a b => lexLt (entryKey a) (entryKey b) = true)) :
    (l1 ++ x :: l2).filter (fun e => lexLt (entryKey x) (entryKey e)) = l2 := by
  rw [List.filter_append]
  rw [List.pairwise_append] at h
  obtain ⟨h1, h2, h3⟩ := h
  rw [List.pairwise_cons] at h2
  have hl1 : l1.filter (fun e => lexLt (entryKey x) (entryKey e)) = [] := by
    rw [List.filter_eq_nil_iff]
    intro e he
    have := h3 e he x (List.mem_cons_self _ _)
    simp [lexLt_asymm this]
  have hx : (x :: l2).filter (fun e => lexLt (entryKey x) (entryKey e)) = l2 := by
    rw [List.filter_cons_of_neg (by simp [lexLt_irrefl])]
    exact List.filter_eq_self.mpr fun e he => h2.1 e he
  rw [hl1, hx]
  rfl

theorem s3List_eq (keys : List Str) (pre m : Str) (j : Nat)
    (hm : (entriesOf keys pre).filter (fun e => lexLt m (entryKey e)) =
      (entriesOf keys pre).drop j) :
    s3List keys pre m listMax =
      { contents := (((entriesOf keys pre).drop j).take listMax).filterMap
          (fun e => match e with | .content k => some k | _ => none),
        cps := (((entriesOf keys pre).drop j).take listMax).filterMap
          (fun e => match e with | .commonPre c => some c | _ => none),
        isTrunc := decide (listMax < ((entriesOf keys pre).drop j).length),
        nextMarker :=
          (((((entriesOf keys pre).drop j).take listMax).getLast?).map entryKey).getD [] } := by
  simp only [s3List]
  rw [hm]

theorem listLoop_collect (keys : List Str) (pre : Str)
    (hsort : (entriesOf keys pre).Pairwise
      (fun a b => lexLt (entryKey a) (entryKey b) = true)) :
    ∀ (fuel j : Nat) (m : Str) (fs ds : List Str),
    (entriesOf keys pre).filter (fun e => lexLt m (entryKey e)) =
      (entriesOf keys pre).drop j →
    (entriesOf keys pre).length - j < fuel →
    listLoop keys pre fuel (s3List keys pre m listMax) (fs, ds) =
      (fs ++ (((entriesOf keys pre).drop j).filterMap
          (fun e => match e with | .content k => some k | _ => none)).map
            (fun k => sep :: k),
       ds ++ (((entriesOf keys pre).drop j).filterMap
          (fun e => match e with | .commonPre c => some c | _ => none)).map
            (fun c => sep :: c.dropLast))
  | 0, j, m, fs, ds, _, hfuel => absurd hfuel (by omega)
  | fuel + 1, j, m, fs, ds, hm, hfuel => by
    have hlm : listMax = 1000 := rfl
    rw [s3List_eq keys pre m j hm]
    rw [listLoop]
    by_cases htr : listMax < ((entriesOf keys pre).drop j).length
    · have htr' : listMax < (entriesOf keys pre).length - j := by
        rw [List.length_drop] at htr
        exact htr
      have hd : decide (listMax < ((entriesOf keys pre).drop j).length) = true :=
        decide_eq_true htr
      simp only [hd, eq_self_iff_true, if_true]
      have hplen : (((entriesOf keys pre).drop j).take listMax).length = listMax := by
        rw [List.length_take, List.length_drop]
        omega
      have hidx : j + (listMax - 1) < (entriesOf keys pre).length := by omega
      have hidx2 : listMax - 1 < ((entriesOf keys pre).drop j).length := by
        rw [List.length_drop]
        omega
      obtain ⟨x, hxeq⟩ : ∃ x, (entriesOf keys pre)[j + (listMax - 1)] = x := ⟨_, rfl⟩
      have hlast : ((((entriesOf keys pre).drop j).take listMax).getLast?) = some x := by
        rw [List.getLast?_eq_getElem?, hplen]
        rw [List.getElem?_take]
        rw [if_pos (by omega : listMax - 1 < listMax)]
        rw [List.getElem?_eq_getElem hidx2]
        rw [List.getElem_drop]
        rw [hxeq]
      have hmarker :
          ((((((entriesOf keys pre).drop j).take listMax).getLast?).map entryKey).getD []) =
            entryKey x := by
        rw [hlast]
        rfl
      have hstep : j + (listMax - 1) + 1 = j + listMax := by
        have h1000 : 0 < listMax := by decide
        omega
      have hdec : (entriesOf keys pre) =
          (entriesOf keys pre).take (j + (listMax - 1)) ++
            (x :: (entriesOf keys pre).drop (j + listMax)) := by
        conv_lhs => rw [← List.take_append_drop (j + (listMax - 1)) (entriesOf keys pre)]
        congr 1
        rw [List.drop_eq_getElem_cons hidx, hstep, hxeq]
      have hm2 : (entriesOf keys pre).filter
          (fun e => lexLt (entryKey x) (entryKey e)) =
            (entriesOf keys pre).drop (j + listMax) := by
        conv_lhs => rw [hdec]
        exact filter_after_mid (hdec ▸ hsort)
      rw [hmarker]
      rw [listLoop_collect keys pre hsort fuel (j + listMax) _ _ _ hm2 (by omega)]
      have hcf : ((entriesOf keys pre).drop j).filterMap
            (fun e => match e with | Entry.content k => some k | _ => none) =
          (((entriesOf keys pre).drop j).take listMax).filterMap
            (fun e => match e with | Entry.content k => some k | _ => none) ++
          ((entriesOf keys pre).drop (j + listMax)).filterMap
            (fun e => match e with | Entry.content k => some k | _ => none) := by
        rw [← List.filterMap_append]
        congr 1
        rw [← List.drop_drop]
        exact (List.take_append_drop _ _).symm
      have hpf : ((entriesOf keys pre).drop j).filterMap
            (fun e => match e with | Entry.commonPre c => some c | _ => none) =
          (((entriesOf keys pre).drop j).take listMax).filterMap
            (fun e => match e with | Entry.commonPre c => some c | _ => none) ++
          ((entriesOf keys pre).drop (j + listMax)).filterMap
            (fun e => match e with | Entry.commonPre c => some c | _ => none) := by
        rw [← List.filterMap_append]
        congr 1
        rw [← List.drop_drop]
        exact (List.take_append_drop _ _).symm
      rw [hcf, hpf, List.map_append, List.map_append, List.append_assoc, List.append_assoc]
    · have hd : decide (listMax < ((entriesOf keys pre).drop j).length) = false :=
        decide_eq_false htr
      simp only [hd, Bool.false_eq_true, if_false]
      have htk : ((entriesOf keys pre).drop j).take listMax = (entriesOf keys pre).drop j :=
        List.take_of_length_le (by omega)
      rw [htk]

theorem ListModel_eq (keys : List Str) (path : Str)
    (hsort : keys.Pairwise (fun a b => lexLt a b = true))
    (hne : ∀ k ∈ keys, k ≠ []) :
    ListModel keys path =
      ((keys.filter (isChildFileKey (s3Path (normDirPath path)))).map
        (fun k => sep :: k)) ++
      (((entriesOf keys (s3Path (normDirPath path))).filterMap
          (fun e => match e with | Entry.commonPre c => some c | _ => none)).map
        (fun c => sep :: c.dropLast)) := by
  have hes : (entriesOf keys (s3Path (normDirPath path))).Pairwise
      (fun a b => lexLt (entryKey a) (entryKey b) = true) := entriesOf_sorted hsort
  have hkne : ∀ e ∈ entriesOf keys (s3Path (normDirPath path)), entryKey e ≠ [] :=
    entriesOf_key_ne_nil hne
  have hm0 : (entriesOf keys (s3Path (normDirPath path))).filter
      (fun e => lexLt [] (entryKey e)) =
      (entriesOf keys (s3Path (normDirPath path))).drop 0 := by
    rw [List.drop_zero]
    exact filter_marker_nil hkne
  have hlen : (entriesOf keys (s3Path (normDirPath path))).length - 0 < keys.length + 1 := by
    have h1 := dedupAdj_length_le ((keys.filter fun k =>
      (s3Path (normDirPath path)).isPrefixOf k).map (entryOf (s3Path (normDirPath path))))
    rw [List.length_map] at h1
    have h2 := List.length_filter_le
      (fun k => (s3Path (normDirPath path)).isPrefixOf k) keys
    simp only [entriesOf]
    omega
  simp only [ListModel]
  rw [listLoop_collect keys (s3Path (normDirPath path)) hes (keys.length + 1) 0 [] [] []
    hm0 hlen]
  simp only [List.drop_zero, List.nil_append]
  rw [entriesOf_content hsort]

theorem entryOf_commonPre_iff {pre k c : Str} :
    entryOf pre k = .commonPre c ↔
      sep ∈ k.drop pre.length ∧ c = pre ++ cutAtSep (k.drop pre.length) := by
  simp only [entryOf]
  by_cases hs : sep ∈ k.drop pre.length
  · rw [if_pos hs]
    constructor
    · intro h
      injection h with h
      exact ⟨hs, h.symm⟩
    · rintro ⟨_, rfl⟩
      rfl
  · rw [if_neg hs]
    constructor
    · intro h
      cases h
    · rintro ⟨h, _⟩
      exact absurd h hs

theorem mem_cps_entriesOf {keys : List Str} {pre c : Str} :
    c ∈ (entriesOf keys pre).filterMap
        (fun e => match e with | Entry.commonPre c => some c | _ => none) ↔
      ∃ k ∈ keys, pre.isPrefixOf k = true ∧ sep ∈ k.drop pre.length ∧
        c = pre ++ cutAtSep (k.drop pre.length) := by
  rw [List.mem_filterMap]
  constructor
  · rintro ⟨e, he, hfe⟩
    have hec : e = Entry.commonPre c := by
      cases e with
      | content k => cases hfe
      | commonPre c2 =>
        injection hfe with h
        rw [h]
    rw [entriesOf, mem_dedupAdj] at he
    obtain ⟨k, hk, hke⟩ := List.mem_map.mp he
    rw [hec] at hke
    obtain ⟨hs, hc⟩ := entryOf_commonPre_iff.mp hke
    exact ⟨k, List.mem_of_mem_filter hk, List.of_mem_filter hk, hs, hc⟩
  · rintro ⟨k, hk, hp, hs, rfl⟩
    refine ⟨Entry.commonPre (pre ++ cutAtSep (k.drop pre.length)), ?_, rfl⟩
    rw [entriesOf, mem_dedupAdj]
    exact List.mem_map.mpr
      ⟨k, List.mem_filter.mpr ⟨hk, hp⟩, entryOf_commonPre_iff.mpr ⟨hs, rfl⟩⟩

theorem cps_sorted {keys : List Str} {pre : Str}
    (hsort : keys.Pairwise (fun a b => lexLt a b = true)) :
    ((entriesOf keys pre).filterMap
        (fun e => match e with | Entry.commonPre c => some c | _ => none)).Pairwise
      (fun a b => lexLt a b = true) := by
  rw [List.pairwise_filterMap]
  refine List.Pairwise.imp ?_ (entriesOf_sorted hsort)
  intro a b hab x hx y hy
  cases a with
  | content k => simp at hx
  | commonPre c1 =>
    cases b with
    | content k => simp at hy
    | commonPre c2 =>
      simp at hx hy
      subst hx
      subst hy
      exact hab

theorem cps_ends_sep {keys : List Str} {pre c : Str}
    (h : c ∈ (entriesOf keys pre).filterMap
      (fun e => match e with | Entry.commonPre c => some c | _ => none)) :
    c.dropLast ++ [sep] = c := by
  obtain ⟨k, hk, hp, hs, rfl⟩ := mem_cps_entriesOf.mp h
  rw [cutAtSep_of_mem hs, ← List.append_assoc, List.dropLast_concat]

theorem ds_nodup {keys : List Str} {pre : Str}
    (hsort : keys.Pairwise (fun a b => lexLt a b = true)) :
    (((entriesOf keys pre).filterMap
        (fun e => match e with | Entry.commonPre c => some c | _ => none)).map
      (fun c => sep :: c.dropLast)).Nodup := by
  apply List.Nodup.map_on
  · intro x hx y hy hxy
    have hx' := cps_ends_sep hx
    have hy' := cps_ends_sep hy
    have hdl : x.dropLast = y.dropLast := by
      injection hxy
    rw [← hx', ← hy', hdl]
  · have h := @cps_sorted keys pre hsort
    refine h.imp ?_
    intro a b hab heq
    subst heq
    rw [lexLt_irrefl] at hab
    cases hab

theorem mem_ds_iff {keys : List Str} {pre d : Str} :
    d ∈ ((entriesOf keys pre).filterMap
        (fun e => match e with | Entry.commonPre c => some c | _ => none)).map
      (fun c => sep :: c.dropLast) ↔
      ∃ k ∈ keys, pre.isPrefixOf k = true ∧ sep ∈ k.drop pre.length ∧
        d = childDirNameOf pre k := by
  rw [List.mem_map]
  constructor
  · rintro ⟨c, hc, rfl⟩
    obtain ⟨k, hk, hp, hs, rfl⟩ := mem_cps_entriesOf.mp hc
    refine ⟨k, hk, hp, hs, ?_⟩
    rw [childDirNameOf]
    rw [cutAtSep_of_mem hs, ← List.append_assoc, List.dropLast_concat]
  · rintro ⟨k, hk, hp, hs, rfl⟩
    refine ⟨pre ++ cutAtSep (k.drop pre.length),
      mem_cps_entriesOf.mpr ⟨k, hk, hp, hs, rfl⟩, ?_⟩
    rw [childDirNameOf]
    rw [cutAtSep_of_mem hs, ← List.append_assoc, List.dropLast_concat]

/-- **C8.** For every directory path over a bucket whose keys are strictly
sorted and nonempty (the S3 listing invariant), including buckets whose
matching entries span more than one 1000-entry backend page, `List` loops
through the truncated pages carrying the marker forward and returns exactly
the files-then-directories concatenation: the file block is the in-order
list of immediate child files (keys under the prefix with no further
delimiter), and the directory block is a duplicate-free list containing
exactly the immediate child directories witnessed by deeper keys. -/
theorem C8_list_pagination (keys : List Str) (path : Str)
    (hsort : keys.Pairwise (fun a b => lexLt a b = true))
    (hne : ∀ k ∈ keys, k ≠ []) :
    ∃ fs ds, ListModel keys path = fs ++ ds ∧
      fs = (keys.filter (isChildFileKey (s3Path (normDirPath path)))).map
        (fun k => sep :: k) ∧
      ds.Nodup ∧
      ∀ d, d ∈ ds ↔ ∃ k ∈ keys,
        (s3Path (normDirPath path)).isPrefixOf k = true ∧
        sep ∈ k.drop ((s3Path (normDirPath path)).length) ∧
        d = childDirNameOf (s3Path (normDirPath path)) k :=
  ⟨_, _, ListModel_eq keys path hsort hne, rfl, ds_nodup hsort, fun _ => mem_ds_iff⟩

theorem C8_list_pagination_witness :
    List.Pairwise (fun a b => lexLt a b = true)
      [[97, 47, 98], [97, 47, 99, 47, 100]] ∧
    (∀ k ∈ [[97, 47, 98], [97, 47, 99, 47, 100]], k ≠ ([] : Str)) ∧
    (∃ fs ds, ListModel [[97, 47, 98], [97, 47, 99, 47, 100]] [sep, 97] = fs ++ ds ∧
      fs = ([[97, 47, 98], [97, 47, 99, 47, 100]].filter
          (isChildFileKey (s3Path (normDirPath [sep, 97])))).map (fun k => sep :: k) ∧
      ds.Nodup ∧
      ∀ d, d ∈ ds ↔ ∃ k ∈ [[97, 47, 98], [97, 47, 99, 47, 100]],
        (s3Path (normDirPath [sep, 97])).isPrefixOf k = true ∧
        sep ∈ k.drop ((s3Path (normDirPath [sep, 97])).length) ∧
        d = childDirNameOf (s3Path (normDirPath [sep, 97])) k) :=
  ⟨by decide, by decide,
    C8_list_pagination [[97, 47, 98], [97, 47, 99, 47, 100]] [sep, 97]
      (by decide) (by decide)⟩

end S3Driver
